import Mathlib

/-!
# Lock-free data structures: SPSC queue, MPMC queue, Treiber stack

Sequential (one call after another) semantics of the three containers of
`07_lockfree_spsc_mpmc/lockfree_datastructures_complete.cpp`.

* `size_t` values are natural numbers below `2 ^ 64`; every `+` of the source
  that can leave that range is reduced `% 2 ^ 64`.
* An array `T buffer_[Size]` is a function from indices to values; a store
  `buffer_[i] = v` is `Function.update`.
* An out-parameter `T& item` is threaded through the call: the call takes the
  caller's current value and returns the value after the call.
* A `for (;;)` or `while` loop takes a fuel argument (the number of iterations
  it may run) and answers `none` when the fuel is used up.
* `compare_exchange_weak` is modelled without spurious failure: it succeeds
  exactly when the stored value equals the expected one.
* The template argument `Size` is a parameter of every operation. `x % Size`
  is Lean's `%`, which for `Size = 0` (undefined in C++) leaves `x` as it is.
* Stack nodes live in a free store that hands out a new address at every
  `new`; allocation never fails.
-/

namespace LockFree

/-- A call made by the client of a container. -/
inductive Call (T : Type) where
  | push (item : T)
  | pop
  deriving DecidableEq

/-- What a call did: `pushed x ok` is `push(x)` answering `ok`; `popped ok out`
is `pop(out)` answering `ok` and leaving `out` in the caller's variable. -/
inductive Event (T : Type) where
  | pushed (item : T) (ok : Bool)
  | popped (ok : Bool) (out : T)
  deriving DecidableEq

/-- The values taken by the successful pushes of a trace, in call order. -/
def accepted {T : Type} : List (Event T) → List T
  | [] => []
  | .pushed x true :: tr => x :: accepted tr
  | .pushed _ false :: tr => accepted tr
  | .popped _ _ :: tr => accepted tr

/-- The values handed out by the successful pops of a trace, in call order. -/
def delivered {T : Type} : List (Event T) → List T
  | [] => []
  | .popped true y :: tr => y :: delivered tr
  | .popped false _ :: tr => delivered tr
  | .pushed _ _ :: tr => delivered tr

/-- The call `std::atomic<X>::compare_exchange_weak(expected, desired)` with no
spurious failure. Answers `(success, stored value afterwards, expected afterwards)`. -/
def compare_exchange_weak {α : Type} [DecidableEq α] (stored expected desired : α) :
    Bool × α × α :=
  if stored = expected then (true, desired, expected) else (false, stored, stored)

/-! ## Part 1: `SPSCQueue<T, Size>` -/

/-- The fields of `SPSCQueue<T, Size>`: the slot array and the two counters. -/
structure SPSCQueue (T : Type) where
  buffer_ : Nat → T
  head_ : Nat
  tail_ : Nat

namespace SPSCQueue

variable {T : Type}

/-- The constructor stores 0 in both counters; the slots keep whatever `mem`
the array starts with. -/
def new (mem : Nat → T) : SPSCQueue T :=
  { buffer_ := mem, head_ := 0, tail_ := 0 }

/-- The method `bool push(const T& item)`. -/
def push (Size : Nat) (q : SPSCQueue T) (item : T) : Bool × SPSCQueue T :=
  let tail := q.tail_
  let next_tail := (tail + 1) % 2 ^ 64 % Size
  if next_tail = q.head_ then
    (false, q)
  else
    (true, { q with buffer_ := Function.update q.buffer_ tail item, tail_ := next_tail })

/-- The method `bool pop(T& item)`: answers the flag, the caller's variable
afterwards and the queue afterwards. -/
def pop (Size : Nat) (q : SPSCQueue T) (item : T) : Bool × T × SPSCQueue T :=
  let head := q.head_
  if head = q.tail_ then
    (false, item, q)
  else
    (true, q.buffer_ head, { q with head_ := (head + 1) % 2 ^ 64 % Size })

/-- The method `size_t size() const`. -/
def size (Size : Nat) (q : SPSCQueue T) : Nat :=
  let head := q.head_
  let tail := q.tail_
  if tail ≥ head then tail - head else ((Size + 2 ^ 64 - head) % 2 ^ 64 + tail) % 2 ^ 64

/-- The method `bool empty() const`. -/
def empty (q : SPSCQueue T) : Bool :=
  decide (q.head_ = q.tail_)

/-- One client call on the queue: the queue afterwards, the caller's out
variable afterwards and the event. -/
def step (Size : Nat) (q : SPSCQueue T) (item : T) : Call T → SPSCQueue T × T × Event T
  | .push x => ((push Size q x).2, item, .pushed x (push Size q x).1)
  | .pop => ((pop Size q item).2.2, (pop Size q item).2.1,
      .popped (pop Size q item).1 (pop Size q item).2.1)

/-- A sequence of client calls made one after another. -/
def run (Size : Nat) : SPSCQueue T → T → List (Call T) → SPSCQueue T × T × List (Event T)
  | q, item, [] => (q, item, [])
  | q, item, c :: cs =>
    ((run Size (step Size q item c).1 (step Size q item c).2.1 cs).1,
     (run Size (step Size q item c).1 (step Size q item c).2.1 cs).2.1,
     (step Size q item c).2.2 :: (run Size (step Size q item c).1 (step Size q item c).2.1 cs).2.2)

/-- The queue after the calls. -/
def final (Size : Nat) (q : SPSCQueue T) (item : T) (calls : List (Call T)) : SPSCQueue T :=
  (run Size q item calls).1

/-- The events of the calls, in call order. -/
def trace (Size : Nat) (q : SPSCQueue T) (item : T) (calls : List (Call T)) : List (Event T) :=
  (run Size q item calls).2.2

/-- The items between `head` and `tail`, oldest first. -/
def contents (Size : Nat) (q : SPSCQueue T) : List T :=
  (List.range (size Size q)).map fun i => q.buffer_ ((q.head_ + i) % Size)

/-- Both counters index the slot array. -/
def InBounds (Size : Nat) (q : SPSCQueue T) : Prop :=
  q.head_ < Size ∧ q.tail_ < Size

end SPSCQueue

/-! ## Part 2: `MPMCQueue<T, Size>` -/

/-- The cast `(intptr_t)x` of a `size_t` value: its 64 bits read as a
two's-complement number. -/
def toIntptr (x : Nat) : Int :=
  if x % 2 ^ 64 < 2 ^ 63 then (x % 2 ^ 64 : Nat) else ((x % 2 ^ 64 : Nat) : Int) - 2 ^ 64

/-- The expression `(intptr_t)a - (intptr_t)b`, the difference wrapping in 64
bits. -/
def intptr_sub (a b : Nat) : Int :=
  (toIntptr a - toIntptr b + 2 ^ 63) % 2 ^ 64 - 2 ^ 63

/-- A slot `MPMCQueue::Node`: its sequence number and its payload. -/
structure Node (T : Type) where
  sequence : Nat
  data : T

/-- The fields of `MPMCQueue<T, Size>`. -/
structure MPMCQueue (T : Type) where
  enqueue_pos_ : Nat
  dequeue_pos_ : Nat
  buffer_ : Nat → Node T

/-- How the `for (;;)` loop of `push` or `pop` is left: by the `return false`
inside it, or by `break` after a successful compare-exchange, with the new
value of the position counter and the local `pos`. -/
inductive LoopExit where
  | ret_false
  | brk (counter pos : Nat)
  deriving DecidableEq

namespace MPMCQueue

variable {T : Type}

/-- The constructor: both counters 0, then the loop storing `i` in the
sequence of slot `i` for `i = 0 .. Size - 1`; the payloads keep what `mem`
holds. -/
def new (Size : Nat) (mem : Nat → Node T) : MPMCQueue T :=
  { enqueue_pos_ := 0
    dequeue_pos_ := 0
    buffer_ := (List.range Size).foldl
      (fun b i => Function.update b i { b i with sequence := i }) mem }

/-- The `for (;;)` loop of `push`, started with the local `pos`. -/
def push_loop (Size : Nat) (q : MPMCQueue T) : Nat → Nat → Option LoopExit
  | _, 0 => none
  | pos, fuel + 1 =>
    let seq := (q.buffer_ (pos % Size)).sequence
    let diff := intptr_sub seq pos
    if diff = 0 then
      if (compare_exchange_weak q.enqueue_pos_ pos ((pos + 1) % 2 ^ 64)).1 then
        some (.brk (compare_exchange_weak q.enqueue_pos_ pos ((pos + 1) % 2 ^ 64)).2.1 pos)
      else
        push_loop Size q (compare_exchange_weak q.enqueue_pos_ pos ((pos + 1) % 2 ^ 64)).2.2 fuel
    else if diff < 0 then
      some .ret_false
    else
      push_loop Size q q.enqueue_pos_ fuel

/-- The method `bool push(const T& item)`. -/
def push (Size : Nat) (q : MPMCQueue T) (item : T) (fuel : Nat) : Option (Bool × MPMCQueue T) :=
  match push_loop Size q q.enqueue_pos_ fuel with
  | none => none
  | some .ret_false => some (false, q)
  | some (.brk counter pos) =>
    some (true,
      { q with
        enqueue_pos_ := counter
        buffer_ := Function.update q.buffer_ (pos % Size)
          { sequence := (pos + 1) % 2 ^ 64, data := item } })

/-- The `for (;;)` loop of `pop`, started with the local `pos`. -/
def pop_loop (Size : Nat) (q : MPMCQueue T) : Nat → Nat → Option LoopExit
  | _, 0 => none
  | pos, fuel + 1 =>
    let seq := (q.buffer_ (pos % Size)).sequence
    let diff := intptr_sub seq ((pos + 1) % 2 ^ 64)
    if diff = 0 then
      if (compare_exchange_weak q.dequeue_pos_ pos ((pos + 1) % 2 ^ 64)).1 then
        some (.brk (compare_exchange_weak q.dequeue_pos_ pos ((pos + 1) % 2 ^ 64)).2.1 pos)
      else
        pop_loop Size q (compare_exchange_weak q.dequeue_pos_ pos ((pos + 1) % 2 ^ 64)).2.2 fuel
    else if diff < 0 then
      some .ret_false
    else
      pop_loop Size q q.dequeue_pos_ fuel

/-- The method `bool pop(T& item)`. -/
def pop (Size : Nat) (q : MPMCQueue T) (item : T) (fuel : Nat) :
    Option (Bool × T × MPMCQueue T) :=
  match pop_loop Size q q.dequeue_pos_ fuel with
  | none => none
  | some .ret_false => some (false, item, q)
  | some (.brk counter pos) =>
    some (true, (q.buffer_ (pos % Size)).data,
      { q with
        dequeue_pos_ := counter
        buffer_ := Function.update q.buffer_ (pos % Size)
          { q.buffer_ (pos % Size) with sequence := (pos + Size) % 2 ^ 64 } })

/-- One client call, each loop allowed `fuel` iterations. -/
def step (Size fuel : Nat) (q : MPMCQueue T) (item : T) :
    Call T → Option (MPMCQueue T × T × Event T)
  | .push x => (push Size q x fuel).map fun r => (r.2, item, .pushed x r.1)
  | .pop => (pop Size q item fuel).map fun r => (r.2.2, r.2.1, .popped r.1 r.2.1)

/-- A sequence of client calls made one after another. -/
def run (Size fuel : Nat) :
    MPMCQueue T → T → List (Call T) → Option (MPMCQueue T × T × List (Event T))
  | q, item, [] => some (q, item, [])
  | q, item, c :: cs =>
    match step Size fuel q item c with
    | none => none
    | some r =>
      match run Size fuel r.1 r.2.1 cs with
      | none => none
      | some r2 => some (r2.1, r2.2.1, r.2.2 :: r2.2.2)

/-- The states reached from a fresh queue by calls made one after another,
every call starting while `enqueue_pos + Size` is below `2 ^ 64` (so that no
counter or sequence number it stores wraps). -/
inductive Reachable (Size : Nat) : MPMCQueue T → Prop
  | fresh (mem : Nat → Node T) : Reachable Size (new Size mem)
  | push {q : MPMCQueue T} (item : T) (fuel : Nat) (ok : Bool) (q1 : MPMCQueue T) :
      Reachable Size q → q.enqueue_pos_ + Size < 2 ^ 64 →
      push Size q item fuel = some (ok, q1) → Reachable Size q1
  | pop {q : MPMCQueue T} (item : T) (fuel : Nat) (ok : Bool) (out : T) (q1 : MPMCQueue T) :
      Reachable Size q → q.enqueue_pos_ + Size < 2 ^ 64 →
      pop Size q item fuel = some (ok, out, q1) → Reachable Size q1

/-- The payloads at positions `dequeue_pos .. enqueue_pos - 1`, oldest first. -/
def contents (Size : Nat) (q : MPMCQueue T) : List T :=
  (List.range (q.enqueue_pos_ - q.dequeue_pos_)).map fun i =>
    (q.buffer_ ((q.dequeue_pos_ + i) % Size)).data

/-- The sequence-number discipline of a queue whose counters have not wrapped:
positions `dequeue_pos .. enqueue_pos - 1` are readable, positions
`enqueue_pos .. dequeue_pos + Size - 1` are writable. -/
def Inv (Size : Nat) (q : MPMCQueue T) : Prop :=
  q.dequeue_pos_ ≤ q.enqueue_pos_ ∧ q.enqueue_pos_ ≤ q.dequeue_pos_ + Size ∧
  (q.enqueue_pos_ = 0 ∨ q.enqueue_pos_ + Size ≤ 2 ^ 64) ∧
  (∀ p, q.dequeue_pos_ ≤ p → p < q.enqueue_pos_ → (q.buffer_ (p % Size)).sequence = p + 1) ∧
  (∀ p, q.enqueue_pos_ ≤ p → p < q.dequeue_pos_ + Size → (q.buffer_ (p % Size)).sequence = p)

/-- The discipline left when `Size` is 1: the only slot carries the value of
`enqueue_pos`. -/
def InvOne (q : MPMCQueue T) : Prop :=
  (q.buffer_ 0).sequence = q.enqueue_pos_ ∧ q.enqueue_pos_ < 2 ^ 64

/-- Example state: a fresh two-slot queue of naturals. -/
def exFresh : MPMCQueue Nat :=
  new 2 fun _ => ⟨0, 0⟩

/-- Example state: `exFresh` after `push(7)`. -/
def exOne : MPMCQueue Nat :=
  ⟨1, 0, Function.update exFresh.buffer_ 0 ⟨1, 7⟩⟩

/-- Example state: `exOne` after `push(8)`; both slots are taken. -/
def exFull : MPMCQueue Nat :=
  ⟨2, 0, Function.update exOne.buffer_ 1 ⟨2, 8⟩⟩

/-- Example state: `exOne` after a `pop`; nothing is pending. -/
def exDrained : MPMCQueue Nat :=
  ⟨1, 1, Function.update exOne.buffer_ 0 ⟨2, 7⟩⟩

end MPMCQueue

/-! ## Part 3: `LockFreeStack<T>` -/

/-- A `Node*`: an address of the free store, 0 for `nullptr`. -/
abbrev Ptr := Nat

/-- A node `LockFreeStack::Node`. -/
structure StackNode (T : Type) where
  data : T
  next : Ptr

/-- The free store: the node at each allocated address, and the address the
next `new` returns. Addresses from `brk` on have never been handed out. -/
structure Heap (T : Type) where
  cells : Ptr → Option (StackNode T)
  brk : Ptr

namespace Heap

variable {T : Type}

/-- The free store with nothing allocated. -/
def init : Heap T :=
  { cells := fun _ => none, brk := 1 }

/-- The expression `new Node(...)`: the address and the free store afterwards. -/
def alloc (h : Heap T) (n : StackNode T) : Ptr × Heap T :=
  (h.brk, { cells := Function.update h.cells h.brk (some n), brk := h.brk + 1 })

/-- A store into the node at address `p`. -/
def store (h : Heap T) (p : Ptr) (n : StackNode T) : Heap T :=
  { h with cells := Function.update h.cells p (some n) }

/-- The statement `delete p`. -/
def delete (h : Heap T) (p : Ptr) : Heap T :=
  { h with cells := Function.update h.cells p none }

end Heap

/-- The field of `LockFreeStack<T>` together with the free store its nodes
live in. -/
structure LockFreeStack (T : Type) where
  head_ : Ptr
  heap : Heap T

namespace LockFreeStack

variable {T : Type}

/-- The constructor stores `nullptr` in `head_`. -/
def new : LockFreeStack T :=
  { head_ := 0, heap := Heap.init }

/-- The loop `while (!head_.compare_exchange_weak(new_node->next, new_node))`
of `push`; a failed exchange leaves the observed head in `new_node->next`.
`none` also when `new_node` is not an allocated node. -/
def push_loop (new_node : Ptr) : LockFreeStack T → Nat → Option (LockFreeStack T)
  | _, 0 => none
  | s, fuel + 1 =>
    match s.heap.cells new_node with
    | none => none
    | some n =>
      if (compare_exchange_weak s.head_ n.next new_node).1 then
        some { s with head_ := (compare_exchange_weak s.head_ n.next new_node).2.1 }
      else
        push_loop new_node
          { s with
            heap := s.heap.store new_node
              { n with next := (compare_exchange_weak s.head_ n.next new_node).2.2 } }
          fuel

/-- The method `void push(const T& item)`: the stack once the call has returned. -/
def push (s : LockFreeStack T) (item : T) (fuel : Nat) : Option (LockFreeStack T) :=
  let new_node := (s.heap.alloc { data := item, next := 0 }).1
  let heap1 := (s.heap.alloc { data := item, next := 0 }).2
  push_loop new_node
    { s with heap := heap1.store new_node { data := item, next := s.head_ } } fuel

/-- The loop `while (old_head && !head_.compare_exchange_weak(old_head,
old_head->next))` of `pop`: the stack and the local `old_head` when the loop
is left. `none` also when `old_head` is a dangling pointer. -/
def pop_loop (s : LockFreeStack T) : Ptr → Nat → Option (LockFreeStack T × Ptr)
  | _, 0 => none
  | old_head, fuel + 1 =>
    if old_head = 0 then
      some (s, old_head)
    else
      match s.heap.cells old_head with
      | none => none
      | some n =>
        if (compare_exchange_weak s.head_ old_head n.next).1 then
          some ({ s with head_ := (compare_exchange_weak s.head_ old_head n.next).2.1 }, old_head)
        else
          pop_loop s (compare_exchange_weak s.head_ old_head n.next).2.2 fuel

/-- The method `bool pop(T& item)`. -/
def pop (s : LockFreeStack T) (item : T) (fuel : Nat) : Option (Bool × T × LockFreeStack T) :=
  match pop_loop s s.head_ fuel with
  | none => none
  | some (s1, old_head) =>
    if old_head = 0 then
      some (false, item, s1)
    else
      match s1.heap.cells old_head with
      | none => none
      | some n => some (true, n.data, { s1 with heap := s1.heap.delete old_head })

/-- The method `bool empty() const`. -/
def empty (s : LockFreeStack T) : Bool :=
  decide (s.head_ = 0)

/-- One client call, each loop allowed `fuel` iterations; `push` has no
result, its event carries `true`. -/
def step (fuel : Nat) (s : LockFreeStack T) (item : T) :
    Call T → Option (LockFreeStack T × T × Event T)
  | .push x => (push s x fuel).map fun r => (r, item, .pushed x true)
  | .pop => (pop s item fuel).map fun r => (r.2.2, r.2.1, .popped r.1 r.2.1)

/-- A sequence of client calls made one after another. -/
def run (fuel : Nat) :
    LockFreeStack T → T → List (Call T) → Option (LockFreeStack T × T × List (Event T))
  | s, item, [] => some (s, item, [])
  | s, item, c :: cs =>
    match step fuel s item c with
    | none => none
    | some r =>
      match run fuel r.1 r.2.1 cs with
      | none => none
      | some r2 => some (r2.1, r2.2.1, r.2.2 :: r2.2.2)

/-- The chain of nodes from address `p` to `nullptr` carries the values `l`,
first node first. -/
inductive Chain (cells : Ptr → Option (StackNode T)) : Ptr → List T → Prop
  | nil : Chain cells 0 []
  | cons {p : Ptr} {x : T} {nxt : Ptr} {l : List T} :
      p ≠ 0 → cells p = some { data := x, next := nxt } → Chain cells nxt l →
      Chain cells p (x :: l)

/-- The stack holds the values `l`, top first: the chain from `head_` carries
them and no address from `brk` on is allocated. -/
def Holds (s : LockFreeStack T) (l : List T) : Prop :=
  s.heap.brk ≠ 0 ∧ (∀ a, s.heap.brk ≤ a → s.heap.cells a = none) ∧
    Chain s.heap.cells s.head_ l

/-- Example state: a fresh stack of naturals after `push(1)` and `push(2)`. -/
def exTwo : LockFreeStack Nat :=
  ⟨2, ⟨Function.update (Function.update (fun _ => none) 1 (some ⟨1, 0⟩)) 2 (some ⟨2, 1⟩), 3⟩⟩

end LockFreeStack

/-- A trace is that of a last-in-first-out store holding `st` (top first):
every push returns, every successful pop hands out the top value and removes
it, and a pop fails only on the empty store. -/
def LifoTrace {T : Type} : List T → List (Event T) → Prop
  | _, [] => True
  | st, .pushed x ok :: tr => ok = true ∧ LifoTrace (x :: st) tr
  | st, .popped true y :: tr => st.head? = some y ∧ LifoTrace st.tail tr
  | st, .popped false _ :: tr => st = [] ∧ LifoTrace st tr

/-- The reference last-in-first-out store, a list with its top first: the
trace it gives for a sequence of calls, `item` being the caller's out
variable. -/
def lifoSpec {T : Type} : List T → T → List (Call T) → List (Event T)
  | _, _, [] => []
  | st, item, .push x :: cs => .pushed x true :: lifoSpec (x :: st) item cs
  | [], item, .pop :: cs => .popped false item :: lifoSpec [] item cs
  | y :: st, _, .pop :: cs => .popped true y :: lifoSpec st y cs

/-! ## Part 4: `MutexQueue<T, Size>` -/

/-- The data fields of `MutexQueue<T, Size>`; the mutex and the condition
variables carry no data. -/
structure MutexQueue (T : Type) where
  buffer_ : Nat → T
  head_ : Nat
  tail_ : Nat

namespace MutexQueue

variable {T : Type}

/-- The implicit constructor: `head_ = 0` and `tail_ = 0` from the member
initialisers; the slots keep whatever `mem` the array starts with. -/
def new (mem : Nat → T) : MutexQueue T :=
  { buffer_ := mem, head_ := 0, tail_ := 0 }

/-- The method `bool push(const T& item)`, the lock held throughout. -/
def push (Size : Nat) (m : MutexQueue T) (item : T) : Bool × MutexQueue T :=
  let next_tail := (m.tail_ + 1) % 2 ^ 64 % Size
  if next_tail = m.head_ then
    (false, m)
  else
    (true, { m with buffer_ := Function.update m.buffer_ m.tail_ item, tail_ := next_tail })

/-- The method `bool pop(T& item)`, the lock held throughout. -/
def pop (Size : Nat) (m : MutexQueue T) (item : T) : Bool × T × MutexQueue T :=
  if m.head_ = m.tail_ then
    (false, item, m)
  else
    (true, m.buffer_ m.head_, { m with head_ := (m.head_ + 1) % 2 ^ 64 % Size })

/-- One client call on the queue: the queue afterwards, the caller's out
variable afterwards and the event. -/
def step (Size : Nat) (m : MutexQueue T) (item : T) : Call T → MutexQueue T × T × Event T
  | .push x => ((push Size m x).2, item, .pushed x (push Size m x).1)
  | .pop => ((pop Size m item).2.2, (pop Size m item).2.1,
      .popped (pop Size m item).1 (pop Size m item).2.1)

/-- A sequence of client calls made one after another. -/
def run (Size : Nat) : MutexQueue T → T → List (Call T) → MutexQueue T × T × List (Event T)
  | m, item, [] => (m, item, [])
  | m, item, c :: cs =>
    ((run Size (step Size m item c).1 (step Size m item c).2.1 cs).1,
     (run Size (step Size m item c).1 (step Size m item c).2.1 cs).2.1,
     (step Size m item c).2.2 :: (run Size (step Size m item c).1 (step Size m item c).2.1 cs).2.2)

/-- The same fields read as an `SPSCQueue`. -/
def toSPSC (m : MutexQueue T) : SPSCQueue T :=
  { buffer_ := m.buffer_, head_ := m.head_, tail_ := m.tail_ }

end MutexQueue

/-! ## Part 5: the harness `producer_consumer_test` -/

/-- The conversion of a `size_t` value to `int`: its low 32 bits read as a
two's-complement number. -/
def toInt (x : Nat) : Int :=
  if x % 2 ^ 32 < 2 ^ 31 then (x % 2 ^ 32 : Nat) else ((x % 2 ^ 32 : Nat) : Int) - 2 ^ 32

/-- The argument `i * 1000000 + count` of `queue.push` in producer `i`, as the
`int` a queue of `int` stores: the product is taken in `int` (`none` when it
overflows, which is undefined), the sum in `size_t`, and the result is
converted to `int`. -/
def token (i count : Nat) : Option Int :=
  if i * 1000000 < 2 ^ 31 then some (toInt ((i * 1000000 + count) % 2 ^ 64)) else none

/-- The bound `messages / producers` of the producer loop: the number of tokens
each producer pushes. -/
def per_producer (messages producers : Nat) : Nat :=
  messages / producers

/-! ## Slot indices of `MPMCQueue` -/

/-- The index in `node = &buffer_[pos % Size]`. -/
def MPMCQueue.slot (Size pos : Nat) : Nat :=
  pos % Size

/-- The position after `pos`: the `size_t` sum `pos + 1` the compare-exchange
stores in the counter. -/
def MPMCQueue.next_pos (pos : Nat) : Nat :=
  (pos + 1) % 2 ^ 64

/-! ## `MPMCQueue` when the counters wrap -/

namespace MPMCQueue

/-- The calls `push(0); pop(out)` made `n` times over. -/
def rounds : Nat → List (Call Nat)
  | 0 => []
  | n + 1 => Call.push 0 :: Call.pop :: rounds n

/-- The trace of `rounds n` when every call succeeds. -/
def roundEvents : Nat → List (Event Nat)
  | 0 => []
  | n + 1 => Event.pushed 0 true :: Event.popped true 0 :: roundEvents n

/-- Example state: the three-slot queue of zeros after `m` rounds of
`push(0); pop(out)`, for `m` up to `2 ^ 64`. Both counters are `m % 2 ^ 64`;
the slot `m % 3` carries `m`, the next one `m + 1`, the third `m + 2`, each
reduced `% 2 ^ 64`. -/
def exRounds (m : Nat) : MPMCQueue Nat :=
  ⟨m % 2 ^ 64, m % 2 ^ 64,
    fun i => ⟨if i < 3 then (m + (i + 3 - m % 3) % 3) % 2 ^ 64 else 0, 0⟩⟩

/-- Example state: the three-slot queue after `2 ^ 64` rounds. Both counters
have wrapped to 0; slot 0 was last popped at position `2 ^ 64 - 1` and carries
`(2 ^ 64 - 1 + 3) % 2 ^ 64 = 2`, slot 1 at `2 ^ 64 - 3` and carries 0, slot 2
at `2 ^ 64 - 2` and carries 1. -/
def exWrapped : MPMCQueue Nat :=
  ⟨0, 0, fun i => ⟨if i = 0 then 2 else if i = 2 then 1 else 0, 0⟩⟩

/-- Example state: the three-slot queue after `2 ^ 64 - 3` rounds; nothing is
pending and both counters are three short of the wrap. -/
def exBrink : MPMCQueue Nat :=
  ⟨2 ^ 64 - 3, 2 ^ 64 - 3,
    fun i => ⟨if i = 0 then 2 ^ 64 - 1 else if i = 1 then 2 ^ 64 - 3
      else if i = 2 then 2 ^ 64 - 2 else 0, 0⟩⟩

/-- Example state: `exBrink` after `push(1); push(2); push(3)`, all accepted.
The third push was made at position `2 ^ 64 - 1`, slot 0, and stored the
sequence number `(2 ^ 64 - 1 + 1) % 2 ^ 64 = 0`; `enqueue_pos` is 0. -/
def exBrim : MPMCQueue Nat :=
  ⟨0, 2 ^ 64 - 3,
    Function.update (Function.update (Function.update exBrink.buffer_ 1 ⟨2 ^ 64 - 2, 1⟩)
      2 ⟨2 ^ 64 - 1, 2⟩) 0 ⟨0, 3⟩⟩

/-- Example state: `exBrim` after `push(4)`, accepted at position 0, slot 0,
over the unconsumed 3. -/
def exOver : MPMCQueue Nat :=
  ⟨1, 2 ^ 64 - 3, Function.update exBrim.buffer_ 0 ⟨1, 4⟩⟩

/-- Example state: `exOver` after a `pop`, which took the 1 from slot 1 at
position `2 ^ 64 - 3` and stored `(2 ^ 64 - 3 + 3) % 2 ^ 64 = 0` there. -/
def exOverPopped : MPMCQueue Nat :=
  ⟨1, 2 ^ 64 - 2, Function.update exOver.buffer_ 1 ⟨0, 1⟩⟩

end MPMCQueue

/-! ## Construction as a call that may fail -/

/-- The constructor `SPSCQueue()` of `SPSCQueue<T, Size>` as a call that may
stop the program (`none`) or return the instance: its body is the two stores
of `SPSCQueue.new`, and neither it nor the class has a `static_assert`,
`assert`, `throw` or `abort` on `Size`, so it returns for every `Size`
without reading it. -/
def SPSCQueue.construct {T : Type} (Size : Nat) (mem : Nat → T) : Option (SPSCQueue T) :=
  let _template_argument := Size
  some (SPSCQueue.new mem)

/-- The constructor `MPMCQueue()` of `MPMCQueue<T, Size>` as a call that may
stop the program (`none`) or return the instance: its body is the stores and
the loop of `MPMCQueue.new`, with no check on `Size`. -/
def MPMCQueue.construct {T : Type} (Size : Nat) (mem : Nat → Node T) : Option (MPMCQueue T) :=
  some (MPMCQueue.new Size mem)

/-! ## Arithmetic helpers -/

theorem mod_of_lt_two_mul {n x : Nat} (hx : x < 2 * n) :
    x % n = if x < n then x else x - n := by
  split
  · exact Nat.mod_eq_of_lt (by assumption)
  · rw [Nat.mod_eq_sub_mod (by omega)]
    exact Nat.mod_eq_of_lt (by omega)

theorem take_length_append_left {T : Type} (d c : List T) :
    (d ++ c).take d.length = d := by
  simp

theorem toInt_of_small {x : Nat} (hx : x < 2 ^ 31) : toInt (x % 2 ^ 64) = (x : Int) := by
  have h64 : x % 2 ^ 64 = x := Nat.mod_eq_of_lt (by omega)
  have h32 : x % 2 ^ 32 = x := Nat.mod_eq_of_lt (by omega)
  unfold toInt
  rw [h64, h32, if_pos hx]

/-! ## SPSC lemmas -/

namespace SPSCQueue

variable {T : Type}

theorem next_index {Size i : Nat} (hW : Size < 2 ^ 64) (hi : i < Size) :
    (i + 1) % 2 ^ 64 % Size = if i + 1 < Size then i + 1 else 0 := by
  have h1 : (i + 1) % 2 ^ 64 = i + 1 := Nat.mod_eq_of_lt (by omega)
  rw [h1, mod_of_lt_two_mul (by omega)]
  split_ifs <;> omega

theorem size_of_inBounds {Size : Nat} {q : SPSCQueue T} (hW : Size < 2 ^ 64)
    (hb : InBounds Size q) :
    size Size q = if q.head_ ≤ q.tail_ then q.tail_ - q.head_ else Size - q.head_ + q.tail_ := by
  obtain ⟨hh, ht⟩ := hb
  unfold size
  simp only [ge_iff_le]
  split
  · rfl
  · omega

theorem size_lt {Size : Nat} {q : SPSCQueue T} (hW : Size < 2 ^ 64)
    (hb : InBounds Size q) : size Size q < Size := by
  rw [size_of_inBounds hW hb]
  obtain ⟨hh, ht⟩ := hb
  split <;> omega

theorem slot_index {Size h i : Nat} (hh : h < Size) (hi : i < Size) :
    (h + i) % Size = if h + i < Size then h + i else h + i - Size :=
  mod_of_lt_two_mul (by omega)

theorem push_full {Size : Nat} {q : SPSCQueue T} (item : T)
    (h : (q.tail_ + 1) % 2 ^ 64 % Size = q.head_) : push Size q item = (false, q) := by
  simp only [push, if_pos h]

theorem push_fst {Size : Nat} (q : SPSCQueue T) (item : T) :
    (push Size q item).1 = !decide ((q.tail_ + 1) % 2 ^ 64 % Size = q.head_) := by
  by_cases h : (q.tail_ + 1) % 2 ^ 64 % Size = q.head_
  · rw [decide_eq_true h]
    simp only [push, if_pos h, Bool.not_true]
  · rw [decide_eq_false h]
    simp only [push, if_neg h, Bool.not_false]

theorem pop_fst {Size : Nat} (q : SPSCQueue T) (item : T) :
    (pop Size q item).1 = !decide (q.head_ = q.tail_) := by
  unfold pop
  by_cases h : q.head_ = q.tail_ <;> simp [h]

theorem pop_empty (Size : Nat) {q : SPSCQueue T} (item : T) (h : q.head_ = q.tail_) :
    pop Size q item = (false, item, q) := by
  simp [pop, h]

theorem push_accept {Size : Nat} {q : SPSCQueue T} (item : T) (hW : Size < 2 ^ 64)
    (hb : InBounds Size q) (h : (q.tail_ + 1) % 2 ^ 64 % Size ≠ q.head_) :
    InBounds Size (push Size q item).2 ∧
      contents Size (push Size q item).2 = contents Size q ++ [item] := by
  have hb0 := hb
  obtain ⟨hh, ht⟩ := hb
  have hnt := next_index hW ht
  have hq : (push Size q item).2 =
      ⟨Function.update q.buffer_ q.tail_ item, q.head_, (q.tail_ + 1) % 2 ^ 64 % Size⟩ := by
    simp only [push, if_neg h]
  have hb1 : InBounds Size (push Size q item).2 := by
    rw [hq]
    refine ⟨hh, ?_⟩
    show (q.tail_ + 1) % 2 ^ 64 % Size < Size
    exact Nat.mod_lt _ (by omega)
  refine ⟨hb1, ?_⟩
  have hs0 := size_of_inBounds hW hb0
  have hs1 := size_of_inBounds hW hb1
  have hsz : size Size (push Size q item).2 = size Size q + 1 := by
    rw [hs1, hs0, hq]
    simp only
    rw [hnt] at h ⊢
    split_ifs at h ⊢ <;> omega
  unfold contents
  rw [hsz, List.range_succ, List.map_append, List.map_singleton]
  congr 1
  · apply List.map_congr_left
    intro i hi
    rw [List.mem_range] at hi
    rw [hq]
    simp only
    have hne : (q.head_ + i) % Size ≠ q.tail_ := by
      rw [slot_index hh (by have := size_lt hW hb0; omega)]
      rw [hs0] at hi
      split_ifs at hi ⊢ <;> omega
    rw [Function.update_noteq hne]
  · rw [hq]
    simp only
    have he : (q.head_ + size Size q) % Size = q.tail_ := by
      rw [slot_index hh (size_lt hW hb0), hs0]
      split_ifs <;> omega
    rw [he, Function.update_same]

theorem pop_deliver {Size : Nat} {q : SPSCQueue T} (item : T) (hW : Size < 2 ^ 64)
    (hb : InBounds Size q) (h : q.head_ ≠ q.tail_) :
    InBounds Size (pop Size q item).2.2 ∧
      contents Size q = (pop Size q item).2.1 :: contents Size (pop Size q item).2.2 := by
  have hb0 := hb
  obtain ⟨hh, ht⟩ := hb
  have hnh := next_index hW hh
  have hq : (pop Size q item).2.2 = ⟨q.buffer_, (q.head_ + 1) % 2 ^ 64 % Size, q.tail_⟩ := by
    simp only [pop, if_neg h]
  have ho : (pop Size q item).2.1 = q.buffer_ q.head_ := by
    simp [pop, h]
  have hb1 : InBounds Size (pop Size q item).2.2 := by
    rw [hq]
    refine ⟨?_, ht⟩
    show (q.head_ + 1) % 2 ^ 64 % Size < Size
    exact Nat.mod_lt _ (by omega)
  refine ⟨hb1, ?_⟩
  have hs0 := size_of_inBounds hW hb0
  have hs1 := size_of_inBounds hW hb1
  have hsz : size Size q = size Size (pop Size q item).2.2 + 1 := by
    rw [hs1, hs0, hq]
    simp only
    rw [hnh]
    split_ifs <;> omega
  unfold contents
  rw [hsz, List.range_succ_eq_map, List.map_cons, List.map_map, ho]
  congr 1
  · simp [Nat.mod_eq_of_lt hh]
  · apply List.map_congr_left
    intro i hi
    rw [List.mem_range] at hi
    rw [hq]
    simp only [Function.comp]
    congr 1
    have hlt := size_lt hW hb0
    rw [hnh, slot_index hh (by omega)]
    by_cases h1 : q.head_ + 1 < Size
    · rw [if_pos h1, slot_index h1 (by omega)]
      split_ifs <;> omega
    · rw [if_neg h1, Nat.zero_add, Nat.mod_eq_of_lt (by omega)]
      split_ifs <;> omega

theorem size_new (Size : Nat) (mem : Nat → T) : size Size (new mem) = 0 := by
  simp [size, new]

theorem contents_new (Size : Nat) (mem : Nat → T) : contents Size (new mem) = [] := by
  simp [contents, size_new]

/-- Running calls keeps the counters in bounds and moves items from the
accepted side to the delivered side through the queue contents. -/
theorem run_contents {Size : Nat} (hW : Size < 2 ^ 64) (calls : List (Call T)) :
    ∀ (q : SPSCQueue T) (item : T), InBounds Size q →
      InBounds Size (run Size q item calls).1 ∧
      contents Size q ++ accepted (run Size q item calls).2.2 =
        delivered (run Size q item calls).2.2 ++ contents Size (run Size q item calls).1 := by
  induction calls with
  | nil => intro q item hb; simp [run, accepted, delivered, hb]
  | cons c cs ih =>
    intro q item hb
    cases c with
    | push x =>
      by_cases h : (q.tail_ + 1) % 2 ^ 64 % Size = q.head_
      · have hp := push_full x h
        have := ih q item hb
        simpa [run, step, hp, accepted, delivered] using this
      · obtain ⟨hb1, hc⟩ := push_accept x hW hb h
        have h1 : (push Size q x).1 = true := by
          rw [push_fst, decide_eq_false h, Bool.not_false]
        have := ih (push Size q x).2 item hb1
        rw [hc] at this
        simpa [run, step, h1, accepted, delivered] using this
    | pop =>
      by_cases h : q.head_ = q.tail_
      · have hp := pop_empty Size item h
        have := ih q item hb
        simpa [run, step, hp, accepted, delivered] using this
      · obtain ⟨hb1, hc⟩ := pop_deliver item hW hb h
        have h1 : (pop Size q item).1 = true := by simp [pop_fst, h]
        have := ih (pop Size q item).2.2 (pop Size q item).2.1 hb1
        rw [hc]
        simpa [run, step, h1, accepted, delivered] using this

theorem contents_length (Size : Nat) (q : SPSCQueue T) :
    (contents Size q).length = size Size q := by
  simp [contents]

theorem inBounds_new {Size : Nat} (hS : 0 < Size) (mem : Nat → T) : InBounds Size (new mem) :=
  ⟨hS, hS⟩

theorem run_replicate_pop {Size : Nat} {q : SPSCQueue T} (item : T) (h : q.head_ = q.tail_)
    (n : Nat) :
    run Size q item (List.replicate n Call.pop) =
      (q, item, List.replicate n (Event.popped false item)) := by
  induction n with
  | zero => rfl
  | succ n ih =>
    have hp := pop_empty Size item h
    simp only [List.replicate_succ, run, step, hp, ih]

theorem push_inBounds {Size : Nat} {q : SPSCQueue T} (item : T) (hb : InBounds Size q) :
    InBounds Size (push Size q item).2 := by
  by_cases h : (q.tail_ + 1) % 2 ^ 64 % Size = q.head_
  · rw [push_full item h]
    exact hb
  · simp only [push, if_neg h]
    exact ⟨hb.1, Nat.mod_lt _ (Nat.lt_of_le_of_lt (Nat.zero_le _) hb.1)⟩

theorem pop_snd_of_ne {Size : Nat} {q : SPSCQueue T} (item : T) (h : q.head_ ≠ q.tail_) :
    (pop Size q item).2.2 = ⟨q.buffer_, (q.head_ + 1) % 2 ^ 64 % Size, q.tail_⟩ := by
  simp only [pop, if_neg h]

theorem pop_inBounds {Size : Nat} {q : SPSCQueue T} (item : T) (hb : InBounds Size q) :
    InBounds Size (pop Size q item).2.2 := by
  by_cases h : q.head_ = q.tail_
  · rw [pop_empty Size item h]
    exact hb
  · rw [pop_snd_of_ne item h]
    exact ⟨Nat.mod_lt _ (Nat.lt_of_le_of_lt (Nat.zero_le _) hb.1), hb.2⟩

theorem run_inBounds {Size : Nat} (calls : List (Call T)) :
    ∀ (q : SPSCQueue T) (item : T), InBounds Size q → InBounds Size (run Size q item calls).1 := by
  induction calls with
  | nil => intro q item hb; exact hb
  | cons c cs ih =>
    intro q item hb
    cases c with
    | push x => exact ih _ _ (push_inBounds x hb)
    | pop => exact ih _ _ (pop_inBounds item hb)

/-- On a full queue of two or more slots the pop succeeds and the push made
next is accepted. -/
theorem pop_push_of_full {Size : Nat} {q : SPSCQueue T} (hS : 2 ≤ Size) (hW : Size < 2 ^ 64)
    (hb : InBounds Size q) (x item y : T) (hfull : (push Size q x).1 = false) :
    (pop Size q item).1 = true ∧ (push Size (pop Size q item).2.2 y).1 = true := by
  obtain ⟨hh, ht⟩ := hb
  rw [push_fst] at hfull
  have hf : (q.tail_ + 1) % 2 ^ 64 % Size = q.head_ := by
    by_contra hne
    rw [decide_eq_false hne] at hfull
    cases hfull
  have hnt := next_index hW ht
  have hnh := next_index hW hh
  have hne : q.head_ ≠ q.tail_ := by
    rw [hnt] at hf
    split_ifs at hf <;> omega
  refine ⟨by rw [pop_fst, decide_eq_false hne]; rfl, ?_⟩
  rw [pop_snd_of_ne item hne, push_fst]
  have hne2 : ¬ (q.tail_ + 1) % 2 ^ 64 % Size = (q.head_ + 1) % 2 ^ 64 % Size := by
    rw [hf, hnh]
    split_ifs <;> omega
  rw [decide_eq_false hne2]
  rfl

theorem push_snd_of_ne {Size : Nat} {q : SPSCQueue T} (item : T)
    (h : (q.tail_ + 1) % 2 ^ 64 % Size ≠ q.head_) :
    push Size q item =
      (true, ⟨Function.update q.buffer_ q.tail_ item, q.head_,
        (q.tail_ + 1) % 2 ^ 64 % Size⟩) := by
  simp only [push, if_neg h]

theorem pop_of_ne (Size : Nat) {q : SPSCQueue T} (item : T) (h : q.head_ ≠ q.tail_) :
    pop Size q item =
      (true, q.buffer_ q.head_, ⟨q.buffer_, (q.head_ + 1) % 2 ^ 64 % Size, q.tail_⟩) := by
  simp only [pop, if_neg h]

/-- Two queues with the same counters and the same pending items, run through
the same calls, give the same events and end with the same counters; a slot
holds the same value in both unless neither has been written since the state
in which it held `mem1 i` and `mem2 i`. -/
theorem run_agree {Size : Nat} (hW : Size < 2 ^ 64) (mem1 mem2 : Nat → T)
    (calls : List (Call T)) :
    ∀ (q1 q2 : SPSCQueue T) (item : T), InBounds Size q1 →
      q1.head_ = q2.head_ → q1.tail_ = q2.tail_ → contents Size q1 = contents Size q2 →
      (∀ i, q1.buffer_ i = q2.buffer_ i ∨ (q1.buffer_ i = mem1 i ∧ q2.buffer_ i = mem2 i)) →
      (run Size q1 item calls).2.2 = (run Size q2 item calls).2.2 ∧
      (run Size q1 item calls).2.1 = (run Size q2 item calls).2.1 ∧
      (run Size q1 item calls).1.head_ = (run Size q2 item calls).1.head_ ∧
      (run Size q1 item calls).1.tail_ = (run Size q2 item calls).1.tail_ ∧
      ∀ i, (run Size q1 item calls).1.buffer_ i = (run Size q2 item calls).1.buffer_ i ∨
        ((run Size q1 item calls).1.buffer_ i = mem1 i ∧
          (run Size q2 item calls).1.buffer_ i = mem2 i) := by
  induction calls with
  | nil =>
    intro q1 q2 item _ hh ht _ hbuf
    exact ⟨rfl, rfl, hh, ht, hbuf⟩
  | cons c cs ih =>
    intro q1 q2 item hb1 hh ht hc hbuf
    have hb2 : InBounds Size q2 := ⟨hh ▸ hb1.1, ht ▸ hb1.2⟩
    cases c with
    | push x =>
      by_cases hf : (q1.tail_ + 1) % 2 ^ 64 % Size = q1.head_
      · have hf2 : (q2.tail_ + 1) % 2 ^ 64 % Size = q2.head_ := by rw [← ht, ← hh]; exact hf
        have hp1 := push_full x hf
        have hp2 := push_full x hf2
        have := ih q1 q2 item hb1 hh ht hc hbuf
        simpa only [run, step, hp1, hp2, List.cons.injEq, true_and] using this
      · have hf2 : (q2.tail_ + 1) % 2 ^ 64 % Size ≠ q2.head_ := by rw [← ht, ← hh]; exact hf
        obtain ⟨hb1n, hc1⟩ := push_accept x hW hb1 hf
        obtain ⟨_, hc2⟩ := push_accept x hW hb2 hf2
        have hp1 := push_snd_of_ne x hf
        have hp2 := push_snd_of_ne x hf2
        rw [hp1] at hb1n hc1
        rw [hp2] at hc2
        have := ih ⟨Function.update q1.buffer_ q1.tail_ x, q1.head_,
            (q1.tail_ + 1) % 2 ^ 64 % Size⟩
          ⟨Function.update q2.buffer_ q2.tail_ x, q2.head_, (q2.tail_ + 1) % 2 ^ 64 % Size⟩
          item hb1n hh
          (by show (q1.tail_ + 1) % 2 ^ 64 % Size = (q2.tail_ + 1) % 2 ^ 64 % Size; rw [ht])
          (by rw [hc1, hc2, hc])
          (by
            intro i
            show Function.update q1.buffer_ q1.tail_ x i = Function.update q2.buffer_ q2.tail_ x i ∨
              (Function.update q1.buffer_ q1.tail_ x i = mem1 i ∧
                Function.update q2.buffer_ q2.tail_ x i = mem2 i)
            rw [← ht]
            by_cases hi : i = q1.tail_
            · left
              rw [hi, Function.update_same, Function.update_same]
            · rw [Function.update_noteq hi, Function.update_noteq hi]
              exact hbuf i)
        simpa only [run, step, hp1, hp2, List.cons.injEq, true_and] using this
    | pop =>
      by_cases he : q1.head_ = q1.tail_
      · have he2 : q2.head_ = q2.tail_ := by rw [← ht, ← hh]; exact he
        have hp1 := pop_empty Size item he
        have hp2 := pop_empty Size item he2
        have := ih q1 q2 item hb1 hh ht hc hbuf
        simpa only [run, step, hp1, hp2, List.cons.injEq, true_and] using this
      · have he2 : q2.head_ ≠ q2.tail_ := by rw [← ht, ← hh]; exact he
        obtain ⟨hb1n, hc1⟩ := pop_deliver item hW hb1 he
        obtain ⟨_, hc2⟩ := pop_deliver item hW hb2 he2
        have hp1 := pop_of_ne Size item he
        have hp2 := pop_of_ne Size item he2
        rw [hp1] at hb1n hc1
        rw [hp2] at hc2
        rw [hc1, hc2] at hc
        have hout : q1.buffer_ q1.head_ = q2.buffer_ q2.head_ := (List.cons.inj hc).1
        have := ih ⟨q1.buffer_, (q1.head_ + 1) % 2 ^ 64 % Size, q1.tail_⟩
          ⟨q2.buffer_, (q2.head_ + 1) % 2 ^ 64 % Size, q2.tail_⟩ (q1.buffer_ q1.head_) hb1n
          (by show (q1.head_ + 1) % 2 ^ 64 % Size = (q2.head_ + 1) % 2 ^ 64 % Size; rw [hh])
          ht (List.cons.inj hc).2 hbuf
        rw [hout] at this
        simpa only [run, step, hp1, hp2, hout, List.cons.injEq, true_and] using this

/-- With one slot every call is refused and leaves the queue as it is. -/
theorem run_size_one (calls : List (Call T)) :
    ∀ (q : SPSCQueue T) (item : T), q.head_ = 0 → q.tail_ = 0 →
      run 1 q item calls = (q, item, calls.map fun c =>
        match c with
        | .push x => Event.pushed x false
        | .pop => Event.popped false item) := by
  induction calls with
  | nil => intro q item _ _; rfl
  | cons c cs ih =>
    intro q item hh ht
    cases c with
    | push x =>
      have hp : push 1 q x = (false, q) :=
        push_full x (show (q.tail_ + 1) % 2 ^ 64 % 1 = q.head_ by rw [Nat.mod_one, hh])
      simp only [run, step, hp, ih q item hh ht, List.map_cons]
    | pop =>
      have hp := pop_empty 1 item (show q.head_ = q.tail_ by rw [hh, ht])
      simp only [run, step, hp, ih q item hh ht, List.map_cons]

end SPSCQueue

/-! ## MutexQueue lemmas -/

namespace MutexQueue

variable {T : Type}

theorem mutex_push_toSPSC (Size : Nat) (m : MutexQueue T) (item : T) :
    (push Size m item).1 = (SPSCQueue.push Size m.toSPSC item).1 ∧
    (push Size m item).2.toSPSC = (SPSCQueue.push Size m.toSPSC item).2 := by
  by_cases h : (m.tail_ + 1) % 2 ^ 64 % Size = m.head_
  · simp only [push, SPSCQueue.push, toSPSC, if_pos h, and_self]
  · simp only [push, SPSCQueue.push, toSPSC, if_neg h, and_self]

theorem mutex_pop_toSPSC (Size : Nat) (m : MutexQueue T) (item : T) :
    (pop Size m item).1 = (SPSCQueue.pop Size m.toSPSC item).1 ∧
    (pop Size m item).2.1 = (SPSCQueue.pop Size m.toSPSC item).2.1 ∧
    (pop Size m item).2.2.toSPSC = (SPSCQueue.pop Size m.toSPSC item).2.2 := by
  by_cases h : m.head_ = m.tail_
  · simp only [pop, SPSCQueue.pop, toSPSC, if_pos h, and_self]
  · simp only [pop, SPSCQueue.pop, toSPSC, if_neg h, and_self]

/-- A run of the mutex queue is the run of the SPSC queue on the same fields. -/
theorem mutex_run_toSPSC (Size : Nat) (calls : List (Call T)) :
    ∀ (m : MutexQueue T) (item : T),
      (run Size m item calls).1.toSPSC = (SPSCQueue.run Size m.toSPSC item calls).1 ∧
      (run Size m item calls).2.1 = (SPSCQueue.run Size m.toSPSC item calls).2.1 ∧
      (run Size m item calls).2.2 = (SPSCQueue.run Size m.toSPSC item calls).2.2 := by
  induction calls with
  | nil => intro m item; exact ⟨rfl, rfl, rfl⟩
  | cons c cs ih =>
    intro m item
    cases c with
    | push x =>
      obtain ⟨h1, h2⟩ := mutex_push_toSPSC Size m x
      have := ih (push Size m x).2 item
      rw [h2] at this
      simp only [run, step, SPSCQueue.run, SPSCQueue.step, h1, this, and_self]
    | pop =>
      obtain ⟨h1, h2, h3⟩ := mutex_pop_toSPSC Size m item
      have := ih (pop Size m item).2.2 (pop Size m item).2.1
      rw [h3, h2] at this
      simp only [run, step, SPSCQueue.run, SPSCQueue.step, h1, h2, this, and_self]

end MutexQueue

/-! ## MPMC lemmas -/

theorem intptr_sub_self (a : Nat) : intptr_sub a a = 0 := by
  unfold intptr_sub
  omega

theorem intptr_sub_neg {a b : Nat} (hb : b < 2 ^ 64) (hab : a < b) (hd : b - a ≤ 2 ^ 63) :
    intptr_sub a b < 0 := by
  unfold intptr_sub toIntptr
  split_ifs <;> omega

theorem intptr_sub_pos {a b : Nat} (ha : a < 2 ^ 64) (hab : b < a) (hd : a - b < 2 ^ 63) :
    0 < intptr_sub a b := by
  unfold intptr_sub toIntptr
  split_ifs <;> omega

theorem intptr_sub_eq_zero {a b : Nat} (ha : a < 2 ^ 64) (hb : b < 2 ^ 64) :
    intptr_sub a b = 0 ↔ a = b := by
  unfold intptr_sub toIntptr
  split_ifs <;> omega

theorem intptr_sub_succ_neg (d : Nat) : intptr_sub d ((d + 1) % 2 ^ 64) < 0 := by
  unfold intptr_sub toIntptr
  split_ifs <;> omega

theorem mod_ne_of_window {n a b : Nat} (hab : a < b) (hb : b < a + n) : a % n ≠ b % n := by
  intro h
  have h0 : (b - a) % n = 0 := Nat.sub_mod_eq_zero_of_mod_eq h.symm
  rw [Nat.mod_eq_of_lt (by omega)] at h0
  omega

namespace MPMCQueue

variable {T : Type}

theorem foldl_sequence (mem : Nat → Node T) (n i : Nat) :
    ((List.range n).foldl (fun b i => Function.update b i { b i with sequence := i }) mem) i =
      if i < n then { sequence := i, data := (mem i).data } else mem i := by
  induction n with
  | zero => simp
  | succ n ih =>
    rw [List.range_succ, List.foldl_append]
    simp only [List.foldl_cons, List.foldl_nil]
    by_cases h : i = n
    · subst h
      rw [Function.update_same, ih]
      simp
    · rw [Function.update_noteq h, ih]
      split_ifs <;> first | rfl | omega

theorem new_sequence {Size i : Nat} (mem : Nat → Node T) (hi : i < Size) :
    ((new Size mem).buffer_ i).sequence = i := by
  unfold new
  simp only
  rw [foldl_sequence, if_pos hi]

theorem mpmc_push_ready (Size : Nat) (q : MPMCQueue T) (item : T) (fuel : Nat)
    (hdiff : intptr_sub (q.buffer_ (q.enqueue_pos_ % Size)).sequence q.enqueue_pos_ = 0) :
    push Size q item (fuel + 1) = some (true,
      ⟨(q.enqueue_pos_ + 1) % 2 ^ 64, q.dequeue_pos_,
        Function.update q.buffer_ (q.enqueue_pos_ % Size)
          ⟨(q.enqueue_pos_ + 1) % 2 ^ 64, item⟩⟩) := by
  simp only [push, push_loop, hdiff, compare_exchange_weak, if_true]

theorem mpmc_push_refused (Size : Nat) (q : MPMCQueue T) (item : T) (fuel : Nat)
    (hdiff : intptr_sub (q.buffer_ (q.enqueue_pos_ % Size)).sequence q.enqueue_pos_ < 0) :
    push Size q item (fuel + 1) = some (false, q) := by
  have hne : ¬ intptr_sub (q.buffer_ (q.enqueue_pos_ % Size)).sequence q.enqueue_pos_ = 0 := by
    omega
  simp only [push, push_loop, if_neg hne, if_pos hdiff]

theorem mpmc_pop_ready (Size : Nat) (q : MPMCQueue T) (item : T) (fuel : Nat)
    (hdiff : intptr_sub (q.buffer_ (q.dequeue_pos_ % Size)).sequence
      ((q.dequeue_pos_ + 1) % 2 ^ 64) = 0) :
    pop Size q item (fuel + 1) = some (true, (q.buffer_ (q.dequeue_pos_ % Size)).data,
      ⟨q.enqueue_pos_, (q.dequeue_pos_ + 1) % 2 ^ 64,
        Function.update q.buffer_ (q.dequeue_pos_ % Size)
          ⟨(q.dequeue_pos_ + Size) % 2 ^ 64, (q.buffer_ (q.dequeue_pos_ % Size)).data⟩⟩) := by
  simp only [pop, pop_loop, hdiff, compare_exchange_weak, if_true]

theorem mpmc_pop_refused (Size : Nat) (q : MPMCQueue T) (item : T) (fuel : Nat)
    (hdiff : intptr_sub (q.buffer_ (q.dequeue_pos_ % Size)).sequence
      ((q.dequeue_pos_ + 1) % 2 ^ 64) < 0) :
    pop Size q item (fuel + 1) = some (false, item, q) := by
  have hne : ¬ intptr_sub (q.buffer_ (q.dequeue_pos_ % Size)).sequence
      ((q.dequeue_pos_ + 1) % 2 ^ 64) = 0 := by
    omega
  simp only [pop, pop_loop, if_neg hne, if_pos hdiff]

theorem mpmc_pop_loop_stuck (Size : Nat) (q : MPMCQueue T)
    (hdiff : 0 < intptr_sub (q.buffer_ (q.dequeue_pos_ % Size)).sequence
      ((q.dequeue_pos_ + 1) % 2 ^ 64)) (fuel : Nat) :
    pop_loop Size q q.dequeue_pos_ fuel = none := by
  have hne : ¬ intptr_sub (q.buffer_ (q.dequeue_pos_ % Size)).sequence
      ((q.dequeue_pos_ + 1) % 2 ^ 64) = 0 := by
    omega
  have hnl : ¬ intptr_sub (q.buffer_ (q.dequeue_pos_ % Size)).sequence
      ((q.dequeue_pos_ + 1) % 2 ^ 64) < 0 := by
    omega
  induction fuel with
  | zero => rfl
  | succ n ih => simp only [pop_loop, if_neg hne, if_neg hnl, ih]

theorem mpmc_push_loop_stuck (Size : Nat) (q : MPMCQueue T)
    (hdiff : 0 < intptr_sub (q.buffer_ (q.enqueue_pos_ % Size)).sequence q.enqueue_pos_)
    (fuel : Nat) :
    push_loop Size q q.enqueue_pos_ fuel = none := by
  have hne : ¬ intptr_sub (q.buffer_ (q.enqueue_pos_ % Size)).sequence q.enqueue_pos_ = 0 := by
    omega
  have hnl : ¬ intptr_sub (q.buffer_ (q.enqueue_pos_ % Size)).sequence q.enqueue_pos_ < 0 := by
    omega
  induction fuel with
  | zero => rfl
  | succ n ih => simp only [push_loop, if_neg hne, if_neg hnl, ih]

theorem mpmc_push_zero (Size : Nat) (q : MPMCQueue T) (item : T) :
    push Size q item 0 = none := by
  simp only [push, push_loop]

theorem mpmc_pop_zero (Size : Nat) (q : MPMCQueue T) (item : T) :
    pop Size q item 0 = none := by
  simp only [pop, pop_loop]

/-- Every result of `push` is one of the two exits of its first iteration. -/
theorem mpmc_push_cases {Size : Nat} {q : MPMCQueue T} {item : T} {fuel : Nat} {ok : Bool}
    {q1 : MPMCQueue T} (h : push Size q item fuel = some (ok, q1)) :
    (intptr_sub (q.buffer_ (q.enqueue_pos_ % Size)).sequence q.enqueue_pos_ = 0 ∧ ok = true ∧
      q1 = ⟨(q.enqueue_pos_ + 1) % 2 ^ 64, q.dequeue_pos_,
        Function.update q.buffer_ (q.enqueue_pos_ % Size)
          ⟨(q.enqueue_pos_ + 1) % 2 ^ 64, item⟩⟩) ∨
    (intptr_sub (q.buffer_ (q.enqueue_pos_ % Size)).sequence q.enqueue_pos_ < 0 ∧ ok = false ∧
      q1 = q) := by
  cases fuel with
  | zero => rw [mpmc_push_zero] at h; cases h
  | succ n =>
    rcases lt_trichotomy
      (intptr_sub (q.buffer_ (q.enqueue_pos_ % Size)).sequence q.enqueue_pos_) 0 with hd | hd | hd
    · rw [mpmc_push_refused Size q item n hd] at h
      cases h
      exact Or.inr ⟨hd, rfl, rfl⟩
    · rw [mpmc_push_ready Size q item n hd] at h
      cases h
      exact Or.inl ⟨hd, rfl, rfl⟩
    · have := mpmc_push_loop_stuck Size q hd (n + 1)
      simp only [push, this] at h
      cases h

/-- Every result of `pop` is one of the two exits of its first iteration. -/
theorem mpmc_pop_cases {Size : Nat} {q : MPMCQueue T} {item : T} {fuel : Nat} {ok : Bool}
    {out : T} {q1 : MPMCQueue T} (h : pop Size q item fuel = some (ok, out, q1)) :
    (intptr_sub (q.buffer_ (q.dequeue_pos_ % Size)).sequence
        ((q.dequeue_pos_ + 1) % 2 ^ 64) = 0 ∧ ok = true ∧
      out = (q.buffer_ (q.dequeue_pos_ % Size)).data ∧
      q1 = ⟨q.enqueue_pos_, (q.dequeue_pos_ + 1) % 2 ^ 64,
        Function.update q.buffer_ (q.dequeue_pos_ % Size)
          ⟨(q.dequeue_pos_ + Size) % 2 ^ 64, (q.buffer_ (q.dequeue_pos_ % Size)).data⟩⟩) ∨
    (intptr_sub (q.buffer_ (q.dequeue_pos_ % Size)).sequence
        ((q.dequeue_pos_ + 1) % 2 ^ 64) < 0 ∧ ok = false ∧ out = item ∧ q1 = q) := by
  cases fuel with
  | zero => rw [mpmc_pop_zero] at h; cases h
  | succ n =>
    rcases lt_trichotomy
      (intptr_sub (q.buffer_ (q.dequeue_pos_ % Size)).sequence
        ((q.dequeue_pos_ + 1) % 2 ^ 64)) 0 with hd | hd | hd
    · rw [mpmc_pop_refused Size q item n hd] at h
      cases h
      exact Or.inr ⟨hd, rfl, rfl, rfl⟩
    · rw [mpmc_pop_ready Size q item n hd] at h
      cases h
      exact Or.inl ⟨hd, rfl, rfl, rfl⟩
    · have := mpmc_pop_loop_stuck Size q hd (n + 1)
      simp only [pop, this] at h
      cases h

theorem inv_new (Size : Nat) (mem : Nat → Node T) : Inv Size (new Size mem) := by
  refine ⟨Nat.le_refl _, Nat.zero_le _, Or.inl rfl, ?_, ?_⟩
  · intro p _ hp
    exact absurd hp (Nat.not_lt_zero p)
  · intro p _ hp
    have hp1 : p < Size := by
      have : (new Size mem).dequeue_pos_ = 0 := rfl
      omega
    rw [Nat.mod_eq_of_lt hp1]
    exact new_sequence mem hp1

/-- With room left, the slot at `enqueue_pos` is writable. -/
theorem inv_room_sequence {Size : Nat} {q : MPMCQueue T} (hI : Inv Size q)
    (hroom : q.enqueue_pos_ < q.dequeue_pos_ + Size) :
    (q.buffer_ (q.enqueue_pos_ % Size)).sequence = q.enqueue_pos_ :=
  hI.2.2.2.2 _ (Nat.le_refl _) hroom

/-- With `Size` items pending, the slot at `enqueue_pos` makes `diff < 0`. -/
theorem inv_full_diff {Size : Nat} {q : MPMCQueue T} (hS : 2 ≤ Size) (hI : Inv Size q)
    (hfull : q.enqueue_pos_ = q.dequeue_pos_ + Size) :
    intptr_sub (q.buffer_ (q.enqueue_pos_ % Size)).sequence q.enqueue_pos_ < 0 := by
  obtain ⟨_, _, hw, hr, _⟩ := hI
  have hidx : q.enqueue_pos_ % Size = q.dequeue_pos_ % Size := by
    rw [hfull, Nat.add_mod_right]
  rw [hidx, hr q.dequeue_pos_ (Nat.le_refl _) (by omega)]
  exact intptr_sub_neg (by omega) (by omega) (by omega)

/-- With an item pending, the slot at `dequeue_pos` is readable. -/
theorem inv_pending_diff {Size : Nat} {q : MPMCQueue T} (hI : Inv Size q)
    (hpend : q.dequeue_pos_ < q.enqueue_pos_) :
    intptr_sub (q.buffer_ (q.dequeue_pos_ % Size)).sequence
      ((q.dequeue_pos_ + 1) % 2 ^ 64) = 0 := by
  obtain ⟨_, _, hw, hr, _⟩ := hI
  rw [hr q.dequeue_pos_ (Nat.le_refl _) hpend, Nat.mod_eq_of_lt (by omega)]
  exact intptr_sub_self _

/-- With nothing pending, the slot at `dequeue_pos` makes `diff < 0`. -/
theorem inv_empty_diff {Size : Nat} {q : MPMCQueue T} (hS : 1 ≤ Size) (hI : Inv Size q)
    (hempty : q.dequeue_pos_ = q.enqueue_pos_) :
    intptr_sub (q.buffer_ (q.dequeue_pos_ % Size)).sequence
      ((q.dequeue_pos_ + 1) % 2 ^ 64) < 0 := by
  obtain ⟨_, _, hw, _, hwr⟩ := hI
  rw [hwr q.dequeue_pos_ (by omega) (by omega)]
  exact intptr_sub_succ_neg _

/-- An accepted push keeps the invariant and appends the item. -/
theorem inv_push_accept {Size : Nat} {q : MPMCQueue T} (item : T) (hI : Inv Size q)
    (hroom : q.enqueue_pos_ < q.dequeue_pos_ + Size) (hno : q.enqueue_pos_ + Size < 2 ^ 64) :
    Inv Size ⟨(q.enqueue_pos_ + 1) % 2 ^ 64, q.dequeue_pos_,
        Function.update q.buffer_ (q.enqueue_pos_ % Size)
          ⟨(q.enqueue_pos_ + 1) % 2 ^ 64, item⟩⟩ ∧
      contents Size ⟨(q.enqueue_pos_ + 1) % 2 ^ 64, q.dequeue_pos_,
        Function.update q.buffer_ (q.enqueue_pos_ % Size)
          ⟨(q.enqueue_pos_ + 1) % 2 ^ 64, item⟩⟩ = contents Size q ++ [item] := by
  obtain ⟨hde, _, _, hr, hwr⟩ := hI
  have he1 : (q.enqueue_pos_ + 1) % 2 ^ 64 = q.enqueue_pos_ + 1 := Nat.mod_eq_of_lt (by omega)
  rw [he1]
  constructor
  · refine ⟨?_, ?_, Or.inr ?_, ?_, ?_⟩
    · show q.dequeue_pos_ ≤ q.enqueue_pos_ + 1
      omega
    · show q.enqueue_pos_ + 1 ≤ q.dequeue_pos_ + Size
      omega
    · show q.enqueue_pos_ + 1 + Size ≤ 2 ^ 64
      omega
    · intro p hp1 hp2
      simp only at hp1 hp2 ⊢
      by_cases hpe : p = q.enqueue_pos_
      · rw [hpe, Function.update_same]
      · rw [Function.update_noteq (mod_ne_of_window (by omega) (by omega))]
        exact hr p hp1 (by omega)
    · intro p hp1 hp2
      simp only at hp1 hp2 ⊢
      rw [Function.update_noteq (Ne.symm (mod_ne_of_window (by omega) (by omega)))]
      exact hwr p (by omega) hp2
  · unfold contents
    simp only
    have hcnt : q.enqueue_pos_ + 1 - q.dequeue_pos_ = (q.enqueue_pos_ - q.dequeue_pos_) + 1 := by
      omega
    rw [hcnt, List.range_succ, List.map_append, List.map_singleton]
    congr 1
    · apply List.map_congr_left
      intro i hi
      rw [List.mem_range] at hi
      rw [Function.update_noteq (mod_ne_of_window (by omega) (by omega))]
    · have : q.dequeue_pos_ + (q.enqueue_pos_ - q.dequeue_pos_) = q.enqueue_pos_ := by omega
      rw [this, Function.update_same]

/-- A successful pop keeps the invariant and removes the oldest item. -/
theorem inv_pop_deliver {Size : Nat} {q : MPMCQueue T} (hI : Inv Size q)
    (hpend : q.dequeue_pos_ < q.enqueue_pos_) :
    Inv Size ⟨q.enqueue_pos_, (q.dequeue_pos_ + 1) % 2 ^ 64,
        Function.update q.buffer_ (q.dequeue_pos_ % Size)
          ⟨(q.dequeue_pos_ + Size) % 2 ^ 64, (q.buffer_ (q.dequeue_pos_ % Size)).data⟩⟩ ∧
      contents Size q = (q.buffer_ (q.dequeue_pos_ % Size)).data ::
        contents Size ⟨q.enqueue_pos_, (q.dequeue_pos_ + 1) % 2 ^ 64,
          Function.update q.buffer_ (q.dequeue_pos_ % Size)
            ⟨(q.dequeue_pos_ + Size) % 2 ^ 64, (q.buffer_ (q.dequeue_pos_ % Size)).data⟩⟩ := by
  obtain ⟨hde, hcap, hw, hr, hwr⟩ := hI
  have hd1 : (q.dequeue_pos_ + 1) % 2 ^ 64 = q.dequeue_pos_ + 1 := Nat.mod_eq_of_lt (by omega)
  have hd2 : (q.dequeue_pos_ + Size) % 2 ^ 64 = q.dequeue_pos_ + Size :=
    Nat.mod_eq_of_lt (by omega)
  rw [hd1, hd2]
  constructor
  · refine ⟨?_, ?_, hw, ?_, ?_⟩
    · show q.dequeue_pos_ + 1 ≤ q.enqueue_pos_
      omega
    · show q.enqueue_pos_ ≤ q.dequeue_pos_ + 1 + Size
      omega
    · intro p hp1 hp2
      simp only at hp1 hp2 ⊢
      rw [Function.update_noteq (Ne.symm (mod_ne_of_window (by omega) (by omega)))]
      exact hr p (by omega) hp2
    · intro p hp1 hp2
      simp only at hp1 hp2 ⊢
      by_cases hpe : p = q.dequeue_pos_ + Size
      · rw [hpe, Nat.add_mod_right, Function.update_same]
      · rw [Function.update_noteq (Ne.symm (mod_ne_of_window (by omega) (by omega)))]
        exact hwr p hp1 (by omega)
  · unfold contents
    simp only
    have hcnt : q.enqueue_pos_ - q.dequeue_pos_ = (q.enqueue_pos_ - (q.dequeue_pos_ + 1)) + 1 := by
      omega
    rw [hcnt, List.range_succ_eq_map, List.map_cons, List.map_map, Nat.add_zero]
    congr 1
    apply List.map_congr_left
    intro i hi
    rw [List.mem_range] at hi
    simp only [Function.comp]
    have hidx : q.dequeue_pos_ + 1 + i = q.dequeue_pos_ + (i + 1) := by omega
    rw [hidx, Function.update_noteq (Ne.symm (mod_ne_of_window (by omega) (by omega)))]

/-- Any result of `push` from a state with the invariant has it again. -/
theorem inv_push {Size : Nat} {q : MPMCQueue T} {item : T} {fuel : Nat} {ok : Bool}
    {q1 : MPMCQueue T} (hS : 2 ≤ Size) (hI : Inv Size q)
    (hno : q.enqueue_pos_ + Size < 2 ^ 64) (h : push Size q item fuel = some (ok, q1)) :
    Inv Size q1 := by
  rcases mpmc_push_cases h with ⟨hd, _, hq⟩ | ⟨_, _, hq⟩
  · by_cases hroom : q.enqueue_pos_ < q.dequeue_pos_ + Size
    · rw [hq]
      exact (inv_push_accept item hI hroom hno).1
    · have := inv_full_diff hS hI (by have := hI.2.1; omega)
      omega
  · rw [hq]
    exact hI

/-- Any result of `pop` from a state with the invariant has it again. -/
theorem inv_pop {Size : Nat} {q : MPMCQueue T} {item : T} {fuel : Nat} {ok : Bool} {out : T}
    {q1 : MPMCQueue T} (hS : 1 ≤ Size) (hI : Inv Size q)
    (h : pop Size q item fuel = some (ok, out, q1)) :
    Inv Size q1 := by
  rcases mpmc_pop_cases h with ⟨hd, _, _, hq⟩ | ⟨_, _, _, hq⟩
  · by_cases hpend : q.dequeue_pos_ < q.enqueue_pos_
    · rw [hq]
      exact (inv_pop_deliver hI hpend).1
    · have := inv_empty_diff hS hI (by have := hI.1; omega)
      omega
  · rw [hq]
    exact hI

theorem inv_of_reachable {Size : Nat} {q : MPMCQueue T} (hS : 2 ≤ Size)
    (hr : Reachable Size q) : Inv Size q := by
  induction hr with
  | fresh mem => exact inv_new Size mem
  | push item fuel ok q1 _ hno h ih => exact inv_push hS ih hno h
  | pop item fuel ok out q1 _ _ h ih => exact inv_pop (by omega) ih h

theorem mpmc_contents_new (Size : Nat) (mem : Nat → Node T) :
    contents Size (new Size mem) = [] := by
  simp [contents, new]

/-- Running calls on a queue whose counters stay below `2 ^ 64` gives a
result, keeps the invariant and moves items from the accepted side to the
delivered side through the pending contents. -/
theorem mpmc_run_contents {Size : Nat} (hS : 2 ≤ Size) (fuel : Nat) (calls : List (Call T)) :
    ∀ (q : MPMCQueue T) (item : T), Inv Size q →
      q.enqueue_pos_ + calls.length + Size ≤ 2 ^ 64 →
      ∃ q1 out tr, run Size (fuel + 1) q item calls = some (q1, out, tr) ∧ Inv Size q1 ∧
        contents Size q ++ accepted tr = delivered tr ++ contents Size q1 := by
  induction calls with
  | nil =>
    intro q item hI _
    exact ⟨q, item, [], rfl, hI, by simp [accepted, delivered]⟩
  | cons c cs ih =>
    intro q item hI hno
    rw [List.length_cons] at hno
    cases c with
    | push x =>
      by_cases hroom : q.enqueue_pos_ < q.dequeue_pos_ + Size
      · have hp := mpmc_push_ready Size q x fuel
          (by rw [inv_room_sequence hI hroom]; exact intptr_sub_self _)
        obtain ⟨hI1, hc⟩ := inv_push_accept x hI hroom (by omega)
        have he1 : (q.enqueue_pos_ + 1) % 2 ^ 64 = q.enqueue_pos_ + 1 :=
          Nat.mod_eq_of_lt (by omega)
        obtain ⟨q1, out, tr, hrun, hI2, hcc⟩ := ih _ item hI1 (by
          show (q.enqueue_pos_ + 1) % 2 ^ 64 + cs.length + Size ≤ 2 ^ 64
          omega)
        refine ⟨q1, out, .pushed x true :: tr, ?_, hI2, ?_⟩
        · simp only [run, step, hp, Option.map_some', hrun]
        · rw [hc] at hcc
          simpa [accepted, delivered] using hcc
      · have hp := mpmc_push_refused Size q x fuel
          (inv_full_diff hS hI (by have := hI.2.1; omega))
        obtain ⟨q1, out, tr, hrun, hI2, hcc⟩ := ih q item hI (by omega)
        refine ⟨q1, out, .pushed x false :: tr, ?_, hI2, ?_⟩
        · simp only [run, step, hp, Option.map_some', hrun]
        · simpa [accepted, delivered] using hcc
    | pop =>
      by_cases hpend : q.dequeue_pos_ < q.enqueue_pos_
      · have hp := mpmc_pop_ready Size q item fuel (inv_pending_diff hI hpend)
        obtain ⟨hI1, hc⟩ := inv_pop_deliver hI hpend
        obtain ⟨q1, out, tr, hrun, hI2, hcc⟩ := ih _ (q.buffer_ (q.dequeue_pos_ % Size)).data
          hI1 (by
            show q.enqueue_pos_ + cs.length + Size ≤ 2 ^ 64
            omega)
        refine ⟨q1, out, .popped true (q.buffer_ (q.dequeue_pos_ % Size)).data :: tr, ?_,
          hI2, ?_⟩
        · simp only [run, step, hp, Option.map_some', hrun]
        · rw [hc]
          simpa [accepted, delivered] using hcc
      · have hp := mpmc_pop_refused Size q item fuel
          (inv_empty_diff (by omega) hI (by have := hI.1; omega))
        obtain ⟨q1, out, tr, hrun, hI2, hcc⟩ := ih q item hI (by omega)
        refine ⟨q1, out, .popped false item :: tr, ?_, hI2, ?_⟩
        · simp only [run, step, hp, Option.map_some', hrun]
        · simpa [accepted, delivered] using hcc

theorem update_mod_one (f : Nat → Node T) (x : Nat) (v : Node T) :
    Function.update f (x % 1) v 0 = v := by
  rw [Nat.mod_one, Function.update_same]

theorem invOne_of_reachable {q : MPMCQueue T} (hr : Reachable 1 q) : InvOne q := by
  induction hr with
  | fresh mem => exact ⟨new_sequence mem (by decide), by show 0 < 2 ^ 64; omega⟩
  | push item fuel ok q1 _ _ h ih =>
    rcases mpmc_push_cases h with ⟨_, _, hq⟩ | ⟨_, _, hq⟩
    · rw [hq]
      refine ⟨?_, Nat.mod_lt _ (by omega)⟩
      dsimp only
      rw [update_mod_one]
    · rw [hq]
      exact ih
  | pop item fuel ok out q1 _ _ h ih =>
    rcases mpmc_pop_cases h with ⟨hd, _, _, hq⟩ | ⟨_, _, _, hq⟩
    · rw [hq]
      obtain ⟨hseq, he⟩ := ih
      refine ⟨?_, he⟩
      rw [Nat.mod_one, hseq] at hd
      dsimp only
      rw [update_mod_one]
      exact ((intptr_sub_eq_zero he (Nat.mod_lt _ (by omega))).1 hd).symm
    · rw [hq]
      exact ih

/-- On a reachable queue with `dequeue_pos == enqueue_pos` the first iteration
of `pop` computes `diff < 0`. -/
theorem reachable_empty_diff {Size : Nat} {q : MPMCQueue T} (hS : 1 ≤ Size)
    (hr : Reachable Size q) (hempty : q.dequeue_pos_ = q.enqueue_pos_) :
    intptr_sub (q.buffer_ (q.dequeue_pos_ % Size)).sequence
      ((q.dequeue_pos_ + 1) % 2 ^ 64) < 0 := by
  by_cases h1 : Size = 1
  · subst h1
    obtain ⟨hseq, _⟩ := invOne_of_reachable hr
    rw [Nat.mod_one, hseq, ← hempty]
    exact intptr_sub_succ_neg _
  · exact inv_empty_diff hS (inv_of_reachable (by omega) hr) hempty

theorem mpmc_run_replicate_pop (Size fuel : Nat) {q : MPMCQueue T} (item : T)
    (h : pop Size q item (fuel + 1) = some (false, item, q)) (n : Nat) :
    run Size (fuel + 1) q item (List.replicate n Call.pop) =
      some (q, item, List.replicate n (Event.popped false item)) := by
  induction n with
  | zero => rfl
  | succ n ih => simp only [List.replicate_succ, run, step, h, Option.map_some', ih]

/-- When push is refused on a queue with the invariant, the pop succeeds and the
push made next is accepted. -/
theorem mpmc_pop_push_of_full {Size : Nat} {q : MPMCQueue T} (hS : 2 ≤ Size) (hI : Inv Size q)
    {x : T} {fuel0 : Nat} {q0 : MPMCQueue T} (hfull : push Size q x fuel0 = some (false, q0))
    (item y : T) (fuel : Nat) :
    ∃ out q1 q2, pop Size q item (fuel + 1) = some (true, out, q1) ∧
      push Size q1 y (fuel + 1) = some (true, q2) := by
  have hdiff : intptr_sub (q.buffer_ (q.enqueue_pos_ % Size)).sequence q.enqueue_pos_ < 0 := by
    rcases mpmc_push_cases hfull with ⟨_, hok, _⟩ | ⟨hd, _, _⟩
    · cases hok
    · exact hd
  have hnroom : ¬ q.enqueue_pos_ < q.dequeue_pos_ + Size := by
    intro hroom
    rw [inv_room_sequence hI hroom, intptr_sub_self] at hdiff
    omega
  have hpend : q.dequeue_pos_ < q.enqueue_pos_ := by omega
  obtain ⟨hI1, _⟩ := inv_pop_deliver hI hpend
  have hd1 : (q.dequeue_pos_ + 1) % 2 ^ 64 = q.dequeue_pos_ + 1 := by
    have := hI.2.2.1
    exact Nat.mod_eq_of_lt (by omega)
  have hseq := inv_room_sequence hI1 (by
    show q.enqueue_pos_ < (q.dequeue_pos_ + 1) % 2 ^ 64 + Size
    have := hI.2.1
    omega)
  exact ⟨_, _, _, mpmc_pop_ready Size q item fuel (inv_pending_diff hI hpend),
    mpmc_push_ready Size _ y fuel (by rw [hseq]; exact intptr_sub_self _)⟩

theorem mpmc_push_loop_zero_diff (Size : Nat) (q : MPMCQueue T) (fuel : Nat)
    (hdiff : intptr_sub (q.buffer_ (q.enqueue_pos_ % Size)).sequence q.enqueue_pos_ = 0) :
    push_loop Size q q.enqueue_pos_ (fuel + 1) =
      some (.brk ((q.enqueue_pos_ + 1) % 2 ^ 64) q.enqueue_pos_) := by
  simp only [push_loop, hdiff, compare_exchange_weak, if_true]

theorem mpmc_push_loop_neg_diff (Size : Nat) (q : MPMCQueue T) (fuel : Nat)
    (hdiff : intptr_sub (q.buffer_ (q.enqueue_pos_ % Size)).sequence q.enqueue_pos_ < 0) :
    push_loop Size q q.enqueue_pos_ (fuel + 1) = some .ret_false := by
  have hne : ¬ intptr_sub (q.buffer_ (q.enqueue_pos_ % Size)).sequence q.enqueue_pos_ = 0 := by
    omega
  simp only [push_loop, if_neg hne, if_pos hdiff]

theorem mpmc_pop_loop_zero_diff (Size : Nat) (q : MPMCQueue T) (fuel : Nat)
    (hdiff : intptr_sub (q.buffer_ (q.dequeue_pos_ % Size)).sequence
      ((q.dequeue_pos_ + 1) % 2 ^ 64) = 0) :
    pop_loop Size q q.dequeue_pos_ (fuel + 1) =
      some (.brk ((q.dequeue_pos_ + 1) % 2 ^ 64) q.dequeue_pos_) := by
  simp only [pop_loop, hdiff, compare_exchange_weak, if_true]

theorem mpmc_pop_loop_neg_diff (Size : Nat) (q : MPMCQueue T) (fuel : Nat)
    (hdiff : intptr_sub (q.buffer_ (q.dequeue_pos_ % Size)).sequence
      ((q.dequeue_pos_ + 1) % 2 ^ 64) < 0) :
    pop_loop Size q q.dequeue_pos_ (fuel + 1) = some .ret_false := by
  have hne : ¬ intptr_sub (q.buffer_ (q.dequeue_pos_ % Size)).sequence
      ((q.dequeue_pos_ + 1) % 2 ^ 64) = 0 := by
    omega
  simp only [pop_loop, if_neg hne, if_pos hdiff]

/-- The first iteration of `push` on a queue with the invariant: `diff` is 0
with room left and negative with `Size` items pending. -/
theorem inv_push_diff {Size : Nat} {q : MPMCQueue T} (hS : 2 ≤ Size) (hI : Inv Size q) :
    (q.enqueue_pos_ < q.dequeue_pos_ + Size ∧
      intptr_sub (q.buffer_ (q.enqueue_pos_ % Size)).sequence q.enqueue_pos_ = 0) ∨
    (q.enqueue_pos_ = q.dequeue_pos_ + Size ∧
      intptr_sub (q.buffer_ (q.enqueue_pos_ % Size)).sequence q.enqueue_pos_ < 0) := by
  by_cases hroom : q.enqueue_pos_ < q.dequeue_pos_ + Size
  · left
    refine ⟨hroom, ?_⟩
    rw [inv_room_sequence hI hroom]
    exact intptr_sub_self _
  · right
    have hfull : q.enqueue_pos_ = q.dequeue_pos_ + Size := by
      have := hI.2.1
      omega
    exact ⟨hfull, inv_full_diff hS hI hfull⟩

/-- The first iteration of `pop` on a queue with the invariant: `diff` is 0
with an item pending and negative with none. -/
theorem inv_pop_diff {Size : Nat} {q : MPMCQueue T} (hS : 1 ≤ Size) (hI : Inv Size q) :
    (q.dequeue_pos_ < q.enqueue_pos_ ∧
      intptr_sub (q.buffer_ (q.dequeue_pos_ % Size)).sequence
        ((q.dequeue_pos_ + 1) % 2 ^ 64) = 0) ∨
    (q.dequeue_pos_ = q.enqueue_pos_ ∧
      intptr_sub (q.buffer_ (q.dequeue_pos_ % Size)).sequence
        ((q.dequeue_pos_ + 1) % 2 ^ 64) < 0) := by
  by_cases hpend : q.dequeue_pos_ < q.enqueue_pos_
  · exact Or.inl ⟨hpend, inv_pending_diff hI hpend⟩
  · right
    have hempty : q.dequeue_pos_ = q.enqueue_pos_ := by
      have := hI.1
      omega
    exact ⟨hempty, inv_empty_diff hS hI hempty⟩

/-- Pushes that find room are all accepted. -/
theorem mpmc_run_pushes {Size : Nat} (hS : 1 ≤ Size) (fuel : Nat) (xs : List T) :
    ∀ (q : MPMCQueue T) (item : T) (rest : List (Call T)), Inv Size q →
      q.enqueue_pos_ + xs.length ≤ q.dequeue_pos_ + Size →
      q.enqueue_pos_ + xs.length + Size ≤ 2 ^ 64 →
      ∃ q1, Inv Size q1 ∧ q1.enqueue_pos_ = q.enqueue_pos_ + xs.length ∧
        q1.dequeue_pos_ = q.dequeue_pos_ ∧
        ∀ r, run Size (fuel + 1) q1 item rest = some r →
          run Size (fuel + 1) q item (xs.map Call.push ++ rest) =
            some (r.1, r.2.1, xs.map (fun x => Event.pushed x true) ++ r.2.2) := by
  induction xs with
  | nil =>
    intro q item rest hI _ _
    refine ⟨q, hI, rfl, rfl, ?_⟩
    intro r hr
    simp only [List.map_nil, List.nil_append, hr]
  | cons x xs ih =>
    intro q item rest hI hroom hno
    rw [List.length_cons] at hroom hno
    have hr : q.enqueue_pos_ < q.dequeue_pos_ + Size := by omega
    have hp := mpmc_push_ready Size q x fuel
      (by rw [inv_room_sequence hI hr]; exact intptr_sub_self _)
    obtain ⟨hI1, _⟩ := inv_push_accept x hI hr (by omega)
    have he1 : (q.enqueue_pos_ + 1) % 2 ^ 64 = q.enqueue_pos_ + 1 :=
      Nat.mod_eq_of_lt (by omega)
    obtain ⟨q1, hI2, he, hd, hrun⟩ := ih _ item rest hI1
      (by
        show (q.enqueue_pos_ + 1) % 2 ^ 64 + xs.length ≤ q.dequeue_pos_ + Size
        omega)
      (by
        show (q.enqueue_pos_ + 1) % 2 ^ 64 + xs.length + Size ≤ 2 ^ 64
        omega)
    refine ⟨q1, hI2, ?_, hd, ?_⟩
    · rw [he]
      show (q.enqueue_pos_ + 1) % 2 ^ 64 + xs.length = q.enqueue_pos_ + (xs.length + 1)
      omega
    · intro r hr1
      simp only [List.map_cons, List.cons_append, run, step, hp, Option.map_some',
        List.append_eq, hrun r hr1]

/-- On a one-slot queue whose slot carries the value of `enqueue_pos`, every
push is accepted and stores over the slot. -/
theorem mpmc_one_push {q : MPMCQueue T} (hI : InvOne q) (item : T) (fuel : Nat) :
    push 1 q item (fuel + 1) = some (true,
      ⟨(q.enqueue_pos_ + 1) % 2 ^ 64, q.dequeue_pos_,
        Function.update q.buffer_ 0 ⟨(q.enqueue_pos_ + 1) % 2 ^ 64, item⟩⟩) := by
  have h := mpmc_push_ready 1 q item fuel
    (by rw [Nat.mod_one, hI.1]; exact intptr_sub_self _)
  rw [Nat.mod_one] at h
  exact h

theorem invOne_new (mem : Nat → Node T) : InvOne (new 1 mem) :=
  ⟨new_sequence mem (by decide), by show 0 < 2 ^ 64; omega⟩

theorem mpmc_run_cons {Size fuel : Nat} {q q1 : MPMCQueue T} {item item1 : T} {c : Call T}
    {cs : List (Call T)} {e : Event T} {r : MPMCQueue T × T × List (Event T)}
    (hstep : step Size fuel q item c = some (q1, item1, e))
    (hrun : run Size fuel q1 item1 cs = some r) :
    run Size fuel q item (c :: cs) = some (r.1, r.2.1, e :: r.2.2) := by
  simp only [run, hstep, hrun]

theorem mpmc_step_push {Size fuel : Nat} {q q1 : MPMCQueue T} (item : T) {x : T} {ok : Bool}
    (h : push Size q x fuel = some (ok, q1)) :
    step Size fuel q item (.push x) = some (q1, item, .pushed x ok) := by
  simp only [step, h, Option.map_some']

/-! ### The three-slot queue at the counter wrap, and the invariant across it -/

theorem exRounds_zero : exRounds 0 = new 3 fun _ => ⟨0, 0⟩ := by
  unfold exRounds new
  simp only [MPMCQueue.mk.injEq]
  refine ⟨by norm_num, by norm_num, ?_⟩
  funext i
  rw [foldl_sequence]
  split_ifs with h
  · congr 1
    omega
  · rfl

theorem exRounds_wrapped : exRounds (2 ^ 64) = exWrapped := by
  unfold exRounds exWrapped
  simp only [MPMCQueue.mk.injEq]
  refine ⟨by norm_num, by norm_num, ?_⟩
  funext i
  congr 1
  split_ifs <;> omega

theorem exRounds_brink : exRounds (2 ^ 64 - 3) = exBrink := by
  unfold exRounds exBrink
  simp only [MPMCQueue.mk.injEq]
  refine ⟨by norm_num, by norm_num, ?_⟩
  funext i
  congr 1
  split_ifs <;> omega

/-- The push of a round on the three-slot queue is accepted. -/
theorem exRounds_push {m : Nat} (hm : m < 2 ^ 64) (fuel : Nat) :
    push 3 (exRounds m) 0 (fuel + 1) = some (true,
      ⟨(m + 1) % 2 ^ 64, m,
        Function.update (exRounds m).buffer_ (m % 3) ⟨(m + 1) % 2 ^ 64, 0⟩⟩) := by
  have hm1 : m % 2 ^ 64 = m := Nat.mod_eq_of_lt hm
  have he : (exRounds m).enqueue_pos_ = m := hm1
  have hd : (exRounds m).dequeue_pos_ = m := hm1
  have hseq : ((exRounds m).buffer_ (m % 3)).sequence = m := by
    unfold exRounds
    dsimp only
    split_ifs <;> omega
  have h := mpmc_push_ready 3 (exRounds m) 0 fuel (by
    rw [he, hseq]
    exact intptr_sub_self m)
  rw [he, hd] at h
  exact h

/-- The pop of a round on the three-slot queue is accepted and leaves the
state of the next round. -/
theorem exRounds_pop (m fuel : Nat) :
    pop 3 ⟨(m + 1) % 2 ^ 64, m,
        Function.update (exRounds m).buffer_ (m % 3) ⟨(m + 1) % 2 ^ 64, 0⟩⟩ 0 (fuel + 1) =
      some (true, 0, exRounds (m + 1)) := by
  have h := mpmc_pop_ready 3 ⟨(m + 1) % 2 ^ 64, m,
    Function.update (exRounds m).buffer_ (m % 3) ⟨(m + 1) % 2 ^ 64, 0⟩⟩ 0 fuel (by
      dsimp only
      rw [Function.update_same]
      exact intptr_sub_self _)
  rw [h]
  dsimp only
  rw [Function.update_same]
  have hq : (⟨(m + 1) % 2 ^ 64, (m + 1) % 2 ^ 64,
      Function.update (Function.update (exRounds m).buffer_ (m % 3) ⟨(m + 1) % 2 ^ 64, 0⟩)
        (m % 3) ⟨(m + 3) % 2 ^ 64, 0⟩⟩ : MPMCQueue Nat) = exRounds (m + 1) := by
    unfold exRounds
    simp only [MPMCQueue.mk.injEq, true_and]
    funext i
    by_cases hi : i = m % 3
    · subst hi
      rw [Function.update_same]
      congr 1
      split_ifs <;> omega
    · rw [Function.update_noteq hi, Function.update_noteq hi]
      congr 1
      split_ifs <;> omega
  rw [hq]

theorem mpmc_step_pop {Size fuel : Nat} {q q1 : MPMCQueue T} {item out : T} {ok : Bool}
    (h : pop Size q item fuel = some (ok, out, q1)) :
    step Size fuel q item .pop = some (q1, out, .popped ok out) := by
  simp only [step, h, Option.map_some']

/-- Rounds on the three-slot queue, up to and through the wrap of both
counters: every call is accepted. -/
theorem run_rounds (fuel n : Nat) :
    ∀ (m : Nat) (rest : List (Call Nat)) (r : MPMCQueue Nat × Nat × List (Event Nat)),
      m + n ≤ 2 ^ 64 → run 3 (fuel + 1) (exRounds (m + n)) 0 rest = some r →
      run 3 (fuel + 1) (exRounds m) 0 (rounds n ++ rest) =
        some (r.1, r.2.1, roundEvents n ++ r.2.2) := by
  induction n with
  | zero =>
    intro m rest r _ h
    simpa only [rounds, roundEvents, List.nil_append, Prod.mk.eta, Nat.add_zero] using h
  | succ n ih =>
    intro m rest r hmn h
    have hm : m < 2 ^ 64 := by omega
    have e : m + (n + 1) = m + 1 + n := by omega
    rw [e] at h
    have h1 := ih (m + 1) rest r (by omega) h
    have h2 := mpmc_run_cons (mpmc_step_pop (exRounds_pop m fuel)) h1
    have h3 := mpmc_run_cons (mpmc_step_push 0 (exRounds_push hm fuel)) h2
    simp only [rounds, roundEvents, List.cons_append]
    exact h3

/-- A push that finds its slot writable, with the new values named. -/
theorem mpmc_push_at {Size : Nat} {q : MPMCQueue T} {p p1 i : Nat} (item : T) (fuel : Nat)
    (hp : q.enqueue_pos_ = p) (hi : p % Size = i) (hs : (q.buffer_ i).sequence = p)
    (hp1 : (p + 1) % 2 ^ 64 = p1) :
    push Size q item (fuel + 1) =
      some (true, ⟨p1, q.dequeue_pos_, Function.update q.buffer_ i ⟨p1, item⟩⟩) := by
  have h := mpmc_push_ready Size q item fuel (by
    rw [hp, hi, hs]
    exact intptr_sub_self p)
  rw [hp, hi, hp1] at h
  exact h

theorem reach_exWrapped (fuel : Nat) :
    run 3 (fuel + 1) (new 3 fun _ => ⟨0, 0⟩) 0 (rounds (2 ^ 64)) =
      some (exWrapped, 0, roundEvents (2 ^ 64)) := by
  have h0 : run 3 (fuel + 1) (exRounds (0 + 2 ^ 64)) 0 [] =
      some (exRounds (0 + 2 ^ 64), 0, []) := rfl
  have h := run_rounds fuel (2 ^ 64) 0 [] _ (Nat.le_of_eq (Nat.zero_add _)) h0
  rw [List.append_nil, List.append_nil, Nat.zero_add, exRounds_zero, exRounds_wrapped] at h
  exact h

theorem exBrink_pushes (fuel : Nat) :
    run 3 (fuel + 1) exBrink 0 [.push 1, .push 2, .push 3] =
      some (exBrim, 0, [.pushed 1 true, .pushed 2 true, .pushed 3 true]) := by
  have h1 : push 3 exBrink 1 (fuel + 1) = some (true,
      ⟨2 ^ 64 - 2, 2 ^ 64 - 3, Function.update exBrink.buffer_ 1 ⟨2 ^ 64 - 2, 1⟩⟩) :=
    mpmc_push_at 1 fuel rfl rfl rfl rfl
  have h2 : push 3 ⟨2 ^ 64 - 2, 2 ^ 64 - 3,
      Function.update exBrink.buffer_ 1 ⟨2 ^ 64 - 2, 1⟩⟩ 2 (fuel + 1) = some (true,
      ⟨2 ^ 64 - 1, 2 ^ 64 - 3, Function.update
        (Function.update exBrink.buffer_ 1 ⟨2 ^ 64 - 2, 1⟩) 2 ⟨2 ^ 64 - 1, 2⟩⟩) :=
    mpmc_push_at 2 fuel rfl rfl rfl rfl
  have h3 : push 3 ⟨2 ^ 64 - 1, 2 ^ 64 - 3, Function.update
        (Function.update exBrink.buffer_ 1 ⟨2 ^ 64 - 2, 1⟩) 2 ⟨2 ^ 64 - 1, 2⟩⟩ 3 (fuel + 1) =
      some (true, exBrim) :=
    mpmc_push_at 3 fuel rfl rfl rfl rfl
  have hnil : run 3 (fuel + 1) exBrim 0 [] = some (exBrim, 0, []) := rfl
  exact mpmc_run_cons (mpmc_step_push 0 h1)
    (mpmc_run_cons (mpmc_step_push 0 h2) (mpmc_run_cons (mpmc_step_push 0 h3) hnil))

/-- A pop that finds its slot readable, with the new values named. -/
theorem mpmc_pop_at {Size : Nat} {q : MPMCQueue T} {p p1 s i : Nat} (item : T) (fuel : Nat)
    (hp : q.dequeue_pos_ = p) (hi : p % Size = i) (hp1 : (p + 1) % 2 ^ 64 = p1)
    (hs : (q.buffer_ i).sequence = p1) (hs1 : (p + Size) % 2 ^ 64 = s) :
    pop Size q item (fuel + 1) = some (true, (q.buffer_ i).data,
      ⟨q.enqueue_pos_, p1, Function.update q.buffer_ i ⟨s, (q.buffer_ i).data⟩⟩) := by
  have h := mpmc_pop_ready Size q item fuel (by
    rw [hp, hi, hs, hp1]
    exact intptr_sub_self p1)
  rw [hp, hi, hp1, hs1] at h
  exact h

theorem mpmc_run_snoc {Size fuel : Nat} (cs : List (Call T)) :
    ∀ {q q1 q2 : MPMCQueue T} {item item1 item2 : T} {c : Call T} {e : Event T}
      {tr : List (Event T)}, run Size fuel q item cs = some (q1, item1, tr) →
      step Size fuel q1 item1 c = some (q2, item2, e) →
      run Size fuel q item (cs ++ [c]) = some (q2, item2, tr ++ [e]) := by
  induction cs with
  | nil =>
    intro q q1 q2 item item1 item2 c e tr hrun hstep
    simp only [run, Option.some.injEq, Prod.mk.injEq] at hrun
    obtain ⟨hq, hi, ht⟩ := hrun
    subst hq hi ht
    simp only [List.nil_append, run, hstep]
  | cons d ds ih =>
    intro q q1 q2 item item1 item2 c e tr hrun hstep
    cases hd : step Size fuel q item d with
    | none =>
      simp only [run, hd] at hrun
      cases hrun
    | some s =>
      cases hr : run Size fuel s.1 s.2.1 ds with
      | none =>
        simp only [run, hd, hr] at hrun
        cases hrun
      | some r =>
        simp only [run, hd, hr, Option.some.injEq, Prod.mk.injEq] at hrun
        obtain ⟨hq, hi, ht⟩ := hrun
        have hr1 : run Size fuel s.1 s.2.1 ds = some (q1, item1, r.2.2) := by
          rw [hr, ← hq, ← hi]
        have h2 := ih hr1 hstep
        simp only [List.cons_append, run, hd, List.append_eq, h2, ← ht]

theorem reach_exBrim (fuel : Nat) :
    run 3 (fuel + 1) (new 3 fun _ => ⟨0, 0⟩) 0
        (rounds (2 ^ 64 - 3) ++ [.push 1, .push 2, .push 3]) =
      some (exBrim, 0,
        roundEvents (2 ^ 64 - 3) ++ [.pushed 1 true, .pushed 2 true, .pushed 3 true]) := by
  have h := run_rounds fuel (2 ^ 64 - 3) 0 [.push 1, .push 2, .push 3]
    (exBrim, 0, [.pushed 1 true, .pushed 2 true, .pushed 3 true])
    (by omega) (by
      rw [Nat.zero_add, exRounds_brink]
      exact exBrink_pushes fuel)
  rw [exRounds_zero] at h
  exact h

theorem exBrim_push (fuel : Nat) : push 3 exBrim 4 (fuel + 1) = some (true, exOver) :=
  mpmc_push_at 4 fuel rfl rfl rfl rfl

theorem reach_exOver (fuel : Nat) :
    run 3 (fuel + 1) (new 3 fun _ => ⟨0, 0⟩) 0
        (rounds (2 ^ 64 - 3) ++ [.push 1, .push 2, .push 3, .push 4]) =
      some (exOver, 0, roundEvents (2 ^ 64 - 3) ++
        [.pushed 1 true, .pushed 2 true, .pushed 3 true, .pushed 4 true]) := by
  have h := mpmc_run_snoc _ (reach_exBrim fuel) (mpmc_step_push 0 (exBrim_push fuel))
  rw [List.append_assoc, List.append_assoc] at h
  exact h

theorem exOver_push (x fuel : Nat) : push 3 exOver x (fuel + 1) = some (false, exOver) :=
  mpmc_push_refused 3 exOver x fuel (by
    show intptr_sub (2 ^ 64 - 2) 1 < 0
    unfold intptr_sub toIntptr
    split_ifs <;> omega)

theorem exOver_pop (out fuel : Nat) :
    pop 3 exOver out (fuel + 1) = some (true, 1, exOverPopped) :=
  mpmc_pop_at out fuel rfl rfl rfl rfl rfl

theorem exOverPopped_push (x fuel : Nat) :
    push 3 exOverPopped x (fuel + 1) = some (false, exOverPopped) :=
  mpmc_push_refused 3 exOverPopped x fuel (by
    show intptr_sub 0 1 < 0
    exact intptr_sub_neg (by omega) (by omega) (by omega))

theorem exWrapped_push (x fuel : Nat) : push 3 exWrapped x fuel = none := by
  have h := mpmc_push_loop_stuck 3 exWrapped (by
    show 0 < intptr_sub 2 0
    unfold intptr_sub toIntptr
    split_ifs <;> omega) fuel
  simp only [push, h]

theorem exWrapped_pop (out fuel : Nat) : pop 3 exWrapped out fuel = none := by
  have h := mpmc_pop_loop_stuck 3 exWrapped (by
    show 0 < intptr_sub 2 ((0 + 1) % 2 ^ 64)
    unfold intptr_sub toIntptr
    split_ifs <;> omega) fuel
  simp only [pop, h]

theorem accepted_roundEvents (n : Nat) (tr : List (Event Nat)) :
    (accepted (roundEvents n ++ tr)).length = n + (accepted tr).length := by
  induction n with
  | zero => simp only [roundEvents, List.nil_append, Nat.zero_add]
  | succ n ih =>
    simp only [roundEvents, List.cons_append, accepted, List.length_cons, List.append_eq, ih]
    omega

theorem delivered_roundEvents (n : Nat) (tr : List (Event Nat)) :
    (delivered (roundEvents n ++ tr)).length = n + (delivered tr).length := by
  induction n with
  | zero => simp only [roundEvents, List.nil_append, Nat.zero_add]
  | succ n ih =>
    simp only [roundEvents, List.cons_append, delivered, List.length_cons, List.append_eq, ih]
    omega

theorem reachable_exFresh : Reachable 2 exFresh :=
  Reachable.fresh fun _ => ⟨0, 0⟩

theorem reachable_exOne : Reachable 2 exOne :=
  Reachable.push 7 1 true exOne reachable_exFresh (by decide) rfl

theorem reachable_exFull : Reachable 2 exFull :=
  Reachable.push 8 1 true exFull reachable_exOne (by decide) rfl

theorem reachable_exDrained : Reachable 2 exDrained :=
  Reachable.pop 0 1 true 7 exDrained reachable_exOne (by decide) rfl

end MPMCQueue

/-! ## Stack lemmas -/

theorem lifoTrace_lifoSpec {T : Type} (calls : List (Call T)) :
    ∀ (st : List T) (item : T), LifoTrace st (lifoSpec st item calls) := by
  induction calls with
  | nil => intro st item; simp [lifoSpec, LifoTrace]
  | cons c cs ih =>
    intro st item
    cases c with
    | push x =>
      simp only [lifoSpec, LifoTrace]
      exact ⟨trivial, ih (x :: st) item⟩
    | pop =>
      cases st with
      | nil =>
        simp only [lifoSpec, LifoTrace]
        exact ⟨trivial, ih [] item⟩
      | cons y st =>
        simp only [lifoSpec, LifoTrace, List.head?_cons, List.tail_cons]
        exact ⟨trivial, ih st y⟩

theorem lifoSpec_pushes {T : Type} (xs : List T) :
    ∀ (st : List T) (item : T) (cs : List (Call T)),
      lifoSpec st item (xs.map Call.push ++ cs) =
        xs.map (fun x => Event.pushed x true) ++ lifoSpec (xs.reverse ++ st) item cs := by
  induction xs with
  | nil => intro st item cs; rfl
  | cons x xs ih =>
    intro st item cs
    simp only [List.map_cons, List.cons_append, lifoSpec, ih, List.reverse_cons,
      List.append_assoc, List.singleton_append, List.nil_append]

theorem getLast_cons_getD {T : Type} (y item : T) (st : List T) :
    (y :: st).getLast?.getD item = st.getLast?.getD y := by
  cases st with
  | nil => rfl
  | cons z st =>
    rw [List.getLast?_cons_cons]
    cases h : (z :: st).getLast? with
    | none => simp at h
    | some v => rfl

theorem lifoSpec_pops {T : Type} (st : List T) :
    ∀ (item : T) (cs : List (Call T)),
      lifoSpec st item (List.replicate st.length Call.pop ++ cs) =
        st.map (fun y => Event.popped true y) ++ lifoSpec [] (st.getLast?.getD item) cs := by
  induction st with
  | nil => intro item cs; rfl
  | cons y st ih =>
    intro item cs
    simp only [List.length_cons, List.replicate_succ, List.cons_append, lifoSpec,
      List.append_eq, ih, List.map_cons, getLast_cons_getD]

namespace LockFreeStack

variable {T : Type}

theorem stack_push_result (s : LockFreeStack T) (item : T) (fuel : Nat) :
    push s item (fuel + 1) = some ⟨s.heap.brk,
      ⟨Function.update s.heap.cells s.heap.brk (some ⟨item, s.head_⟩), s.heap.brk + 1⟩⟩ := by
  simp only [push, push_loop, Heap.alloc, Heap.store, Function.update_same,
    compare_exchange_weak, if_true, Function.update_idem]

theorem stack_pop_zero (s : LockFreeStack T) (item : T) : pop s item 0 = none := by
  simp only [pop, pop_loop]

theorem stack_pop_null (s : LockFreeStack T) (item : T) (fuel : Nat) (h : s.head_ = 0) :
    pop s item (fuel + 1) = some (false, item, s) := by
  simp only [pop, pop_loop, h, if_true]

theorem stack_pop_node (s : LockFreeStack T) (item : T) (fuel : Nat) (n : StackNode T)
    (h : s.head_ ≠ 0) (hn : s.heap.cells s.head_ = some n) :
    pop s item (fuel + 1) = some (true, n.data,
      ⟨n.next, ⟨Function.update s.heap.cells s.head_ none, s.heap.brk⟩⟩) := by
  simp only [pop, pop_loop, if_neg h, hn, compare_exchange_weak, if_true, Heap.delete]

theorem stack_pop_dangling (s : LockFreeStack T) (item : T) (fuel : Nat)
    (h : s.head_ ≠ 0) (hn : s.heap.cells s.head_ = none) :
    pop s item fuel = none := by
  cases fuel with
  | zero => exact stack_pop_zero s item
  | succ n => simp only [pop, pop_loop, if_neg h, hn]

/-- When pop answers false, `head_` was null. -/
theorem stack_pop_false_null {s : LockFreeStack T} {item : T} {fuel : Nat} {out : T}
    {s1 : LockFreeStack T} (h : pop s item fuel = some (false, out, s1)) : s.head_ = 0 := by
  by_contra hne
  cases fuel with
  | zero => rw [stack_pop_zero] at h; cases h
  | succ n =>
    cases hn : s.heap.cells s.head_ with
    | none => rw [stack_pop_dangling s item (n + 1) hne hn] at h; cases h
    | some nd => rw [stack_pop_node s item n nd hne hn] at h; cases h

theorem chain_det {cells : Ptr → Option (StackNode T)} {p : Ptr} {l1 : List T}
    (h1 : Chain cells p l1) : ∀ {l2 : List T}, Chain cells p l2 → l1 = l2 := by
  induction h1 with
  | nil =>
    intro l2 h2
    cases h2 with
    | nil => rfl
    | cons hp _ _ => exact absurd rfl hp
  | cons hp hc _ ih =>
    intro l2 h2
    cases h2 with
    | nil => exact absurd rfl hp
    | cons _ hc2 ht2 =>
      rw [hc] at hc2
      cases hc2
      rw [ih ht2]

/-- A store at an address from which every chain is longer than `l` does not
touch the chain carrying `l`. -/
theorem chain_update {cells : Ptr → Option (StackNode T)} {q : Ptr} {l : List T}
    (a : Ptr) (v : Option (StackNode T)) (ha : a ≠ 0) (h : Chain cells q l) :
    (∀ l1, Chain cells a l1 → l.length < l1.length) → Chain (Function.update cells a v) q l := by
  induction h with
  | nil => intro _; exact Chain.nil
  | @cons p x nxt l hp hc ht ih =>
    intro hlen
    have hne : p ≠ a := by
      intro hpa
      subst hpa
      exact absurd (hlen _ (Chain.cons hp hc ht)) (Nat.lt_irrefl _)
    refine Chain.cons hp ?_ (ih ?_)
    · rw [Function.update_noteq hne]
      exact hc
    · intro l1 h1
      have := hlen l1 h1
      simp only [List.length_cons] at this
      omega

theorem chain_update_free {cells : Ptr → Option (StackNode T)} {q : Ptr} {l : List T}
    (a : Ptr) (v : Option (StackNode T)) (ha : a ≠ 0) (hfree : cells a = none)
    (h : Chain cells q l) : Chain (Function.update cells a v) q l := by
  apply chain_update a v ha h
  intro l1 h1
  cases h1 with
  | nil => exact absurd rfl ha
  | cons _ hc _ => rw [hfree] at hc; cases hc

theorem chain_nil_inv {cells : Ptr → Option (StackNode T)} {p : Ptr}
    (h : Chain cells p []) : p = 0 := by
  cases h
  rfl

theorem chain_cons_inv {cells : Ptr → Option (StackNode T)} {p : Ptr} {x : T} {l : List T}
    (h : Chain cells p (x :: l)) :
    p ≠ 0 ∧ ∃ nxt, cells p = some ⟨x, nxt⟩ ∧ Chain cells nxt l := by
  cases h with
  | cons hp hc ht => exact ⟨hp, _, hc, ht⟩

theorem holds_new : Holds (new : LockFreeStack T) [] :=
  ⟨Nat.succ_ne_zero 0, fun _ _ => rfl, Chain.nil⟩

theorem holds_push {s : LockFreeStack T} {l : List T} (item : T) (h : Holds s l) :
    Holds ⟨s.heap.brk,
      ⟨Function.update s.heap.cells s.heap.brk (some ⟨item, s.head_⟩), s.heap.brk + 1⟩⟩
      (item :: l) := by
  obtain ⟨hb, hfree, hc⟩ := h
  refine ⟨Nat.succ_ne_zero _, ?_, ?_⟩
  · intro a ha
    have ha1 : s.heap.brk + 1 ≤ a := ha
    show Function.update s.heap.cells s.heap.brk _ a = none
    rw [Function.update_noteq (Nat.ne_of_gt ha1)]
    exact hfree a (Nat.le_of_succ_le ha1)
  · refine Chain.cons hb ?_ (chain_update_free _ _ hb (hfree _ (Nat.le_refl _)) hc)
    show Function.update s.heap.cells s.heap.brk _ s.heap.brk = _
    rw [Function.update_same]

theorem holds_pop {s : LockFreeStack T} {x : T} {l : List T} (h : Holds s (x :: l)) :
    ∃ nxt, s.head_ ≠ 0 ∧ s.heap.cells s.head_ = some ⟨x, nxt⟩ ∧
      Holds ⟨nxt, ⟨Function.update s.heap.cells s.head_ none, s.heap.brk⟩⟩ l := by
  obtain ⟨hb, hfree, hc⟩ := h
  obtain ⟨hp, nxt, hcell, ht⟩ := chain_cons_inv hc
  refine ⟨nxt, hp, hcell, hb, ?_, ?_⟩
  · intro a ha
    show Function.update s.heap.cells s.head_ none a = none
    by_cases hah : a = s.head_
    · rw [hah, Function.update_same]
    · rw [Function.update_noteq hah]
      exact hfree a ha
  · apply chain_update _ _ hp ht
    intro l1 h1
    rw [← chain_det (Chain.cons hp hcell ht) h1]
    exact Nat.lt_succ_self _

theorem holds_nil_head {s : LockFreeStack T} (h : Holds s []) : s.head_ = 0 := by
  exact chain_nil_inv h.2.2

theorem holds_exists (l : List T) : ∃ s : LockFreeStack T, Holds s l := by
  induction l with
  | nil => exact ⟨new, holds_new⟩
  | cons x l ih =>
    obtain ⟨s, hs⟩ := ih
    exact ⟨_, holds_push x hs⟩

/-- Running calls on a stack holding `l` returns and gives the trace of the
reference store started with `l`. -/
theorem stack_run_refines (fuel : Nat) (calls : List (Call T)) :
    ∀ (s : LockFreeStack T) (item : T) (l : List T), Holds s l →
      ∃ s1 out, run (fuel + 1) s item calls = some (s1, out, lifoSpec l item calls) := by
  induction calls with
  | nil =>
    intro s item l _
    exact ⟨s, item, by simp only [run, lifoSpec]⟩
  | cons c cs ih =>
    intro s item l hs
    cases c with
    | push x =>
      obtain ⟨s1, out, hrun⟩ := ih _ item (x :: l) (holds_push x hs)
      refine ⟨s1, out, ?_⟩
      simp only [run, step, stack_push_result, Option.map_some', hrun, lifoSpec]
    | pop =>
      cases l with
      | nil =>
        obtain ⟨s1, out, hrun⟩ := ih s item [] hs
        refine ⟨s1, out, ?_⟩
        simp only [run, step, stack_pop_null s item fuel (holds_nil_head hs), Option.map_some',
          hrun, lifoSpec]
      | cons y l =>
        obtain ⟨nxt, hp, hcell, hs1⟩ := holds_pop hs
        obtain ⟨s1, out, hrun⟩ := ih _ y l hs1
        refine ⟨s1, out, ?_⟩
        simp only [run, step, stack_pop_node s item fuel _ hp hcell, Option.map_some', hrun,
          lifoSpec]

theorem stack_run_replicate_pop (fuel : Nat) (s : LockFreeStack T) (item : T)
    (h : s.head_ = 0) (n : Nat) :
    run (fuel + 1) s item (List.replicate n Call.pop) =
      some (s, item, List.replicate n (Event.popped false item)) := by
  induction n with
  | zero => rfl
  | succ n ih =>
    simp only [List.replicate_succ, run, step, stack_pop_null s item fuel h, Option.map_some', ih]

theorem holds_exTwo : Holds exTwo [2, 1] :=
  holds_push 2 (holds_push 1 holds_new)

end LockFreeStack

/-! ## The claims -/

section Claims

variable {T : Type}

/-- C1 (SPSCQueue FIFO): for every `Size >= 2` (a `size_t`) and every finite
sequence of `push` and `pop` calls made one after another on a freshly
constructed queue, the values delivered by the successful pops are, in order,
the first `k` values accepted by the successful pushes, `k` being the number of
successful pops. -/
theorem spsc_fifo (Size : Nat) (hS : 2 ≤ Size) (hW : Size < 2 ^ 64) (mem : Nat → T) (item : T)
    (calls : List (Call T)) :
    delivered (SPSCQueue.trace Size (SPSCQueue.new mem) item calls) =
      (accepted (SPSCQueue.trace Size (SPSCQueue.new mem) item calls)).take
        (delivered (SPSCQueue.trace Size (SPSCQueue.new mem) item calls)).length := by
  have h := (SPSCQueue.run_contents hW calls (SPSCQueue.new mem) item
    (SPSCQueue.inBounds_new (by omega) mem)).2
  rw [SPSCQueue.contents_new, List.nil_append] at h
  unfold SPSCQueue.trace
  rw [h, take_length_append_left]

/-- Witness of C1: a queue of four slots, pushes and pops interleaved, one push
refused on the full queue and one pop on the empty queue. -/
theorem spsc_fifo_witness :
    2 ≤ 4 ∧ 4 < 2 ^ 64 ∧
    accepted (SPSCQueue.trace 4 (SPSCQueue.new fun _ => 0) 0
        [.push 1, .push 2, .pop, .push 3, .push 4, .push 5, .pop, .pop, .pop, .pop]) =
      [1, 2, 3, 4] ∧
    delivered (SPSCQueue.trace 4 (SPSCQueue.new fun _ => 0) 0
        [.push 1, .push 2, .pop, .push 3, .push 4, .push 5, .pop, .pop, .pop, .pop]) =
      [1, 2, 3, 4] ∧
    delivered (SPSCQueue.trace 4 (SPSCQueue.new fun _ => 0) 0
        [.push 1, .push 2, .pop, .push 3, .push 4, .push 5, .pop, .pop, .pop, .pop]) =
      (accepted (SPSCQueue.trace 4 (SPSCQueue.new fun _ => 0) 0
        [.push 1, .push 2, .pop, .push 3, .push 4, .push 5, .pop, .pop, .pop, .pop])).take
        (delivered (SPSCQueue.trace 4 (SPSCQueue.new fun _ => 0) 0
          [.push 1, .push 2, .pop, .push 3, .push 4, .push 5, .pop, .pop, .pop, .pop])).length :=
  ⟨by decide, by norm_num, by decide, by decide,
    spsc_fifo 4 (by decide) (by norm_num) (fun _ => 0) 0 _⟩

/-- C2 (SPSCQueue push on a full queue): in every state in which
`(tail + 1) % Size == head`, the sum taken in `size_t` as the code takes it,
`push(item)` returns false and leaves `head`, `tail` and every buffer slot
unchanged. Holds for every `Size`, in particular for `Size >= 2`. -/
theorem spsc_push_full_unchanged (Size : Nat) (q : SPSCQueue T) (item : T)
    (hfull : (q.tail_ + 1) % 2 ^ 64 % Size = q.head_) :
    SPSCQueue.push Size q item = (false, q) :=
  SPSCQueue.push_full item hfull

/-- Witness of C2: four slots, `head = 1`, `tail = 0` after a wrap of `tail`. -/
theorem spsc_push_full_unchanged_witness :
    (0 + 1) % 2 ^ 64 % 4 = 1 ∧
    SPSCQueue.push 4 (⟨fun i => 10 * i, 1, 0⟩ : SPSCQueue Nat) 7 =
      (false, ⟨fun i => 10 * i, 1, 0⟩) :=
  ⟨by norm_num, spsc_push_full_unchanged 4 ⟨fun i => 10 * i, 1, 0⟩ 7 (by norm_num)⟩

/-- C3 (SPSCQueue pop on an empty queue): in every state with `head == tail`,
`pop(out)` returns false and leaves `head`, `tail`, the buffer and the caller's
`out` unchanged; hence any number of pops made one after another all return
false and change nothing. -/
theorem spsc_pop_empty_unchanged (Size : Nat) (q : SPSCQueue T) (item : T)
    (hempty : q.head_ = q.tail_) :
    SPSCQueue.pop Size q item = (false, item, q) ∧
    ∀ n : Nat, SPSCQueue.run Size q item (List.replicate n Call.pop) =
      (q, item, List.replicate n (Event.popped false item)) :=
  ⟨SPSCQueue.pop_empty Size item hempty, SPSCQueue.run_replicate_pop item hempty⟩

/-- Witness of C3: four slots, `head = tail = 2`. -/
theorem spsc_pop_empty_unchanged_witness :
    (2 : Nat) = 2 ∧
    SPSCQueue.pop 4 (⟨fun i => 10 * i, 2, 2⟩ : SPSCQueue Nat) 7 =
      (false, 7, ⟨fun i => 10 * i, 2, 2⟩) ∧
    ∀ n : Nat, SPSCQueue.run 4 (⟨fun i => 10 * i, 2, 2⟩ : SPSCQueue Nat) 7
        (List.replicate n Call.pop) =
      (⟨fun i => 10 * i, 2, 2⟩, 7, List.replicate n (Event.popped false 7)) :=
  ⟨rfl, spsc_pop_empty_unchanged 4 ⟨fun i => 10 * i, 2, 2⟩ 7 rfl⟩

/-- C4 (SPSCQueue full/empty characterisation): for every `Size >= 2` (a
`size_t`) and every state reached from a fresh queue by calls made one after
another, `push` returns false iff `(tail + 1) % Size == head`, which holds iff
exactly `Size - 1` accepted items have not been popped; and `pop` returns false
iff `head == tail`, which holds iff no accepted item is unpopped. -/
theorem spsc_full_empty_iff (Size : Nat) (hS : 2 ≤ Size) (hW : Size < 2 ^ 64) (mem : Nat → T)
    (item : T) (calls : List (Call T)) (x y : T) :
    (((SPSCQueue.push Size (SPSCQueue.final Size (SPSCQueue.new mem) item calls) x).1 = false ↔
        ((SPSCQueue.final Size (SPSCQueue.new mem) item calls).tail_ + 1) % Size =
          (SPSCQueue.final Size (SPSCQueue.new mem) item calls).head_) ∧
      (((SPSCQueue.final Size (SPSCQueue.new mem) item calls).tail_ + 1) % Size =
          (SPSCQueue.final Size (SPSCQueue.new mem) item calls).head_ ↔
        (accepted (SPSCQueue.trace Size (SPSCQueue.new mem) item calls)).length =
          (delivered (SPSCQueue.trace Size (SPSCQueue.new mem) item calls)).length +
            (Size - 1))) ∧
    (((SPSCQueue.pop Size (SPSCQueue.final Size (SPSCQueue.new mem) item calls) y).1 = false ↔
        (SPSCQueue.final Size (SPSCQueue.new mem) item calls).head_ =
          (SPSCQueue.final Size (SPSCQueue.new mem) item calls).tail_) ∧
      ((SPSCQueue.final Size (SPSCQueue.new mem) item calls).head_ =
          (SPSCQueue.final Size (SPSCQueue.new mem) item calls).tail_ ↔
        (accepted (SPSCQueue.trace Size (SPSCQueue.new mem) item calls)).length =
          (delivered (SPSCQueue.trace Size (SPSCQueue.new mem) item calls)).length)) := by
  obtain ⟨hb, hc⟩ := SPSCQueue.run_contents hW calls (SPSCQueue.new mem) item
    (SPSCQueue.inBounds_new (by omega) mem)
  rw [SPSCQueue.contents_new, List.nil_append] at hc
  have hlen := congrArg List.length hc
  rw [List.length_append, SPSCQueue.contents_length, SPSCQueue.size_of_inBounds hW hb] at hlen
  unfold SPSCQueue.final SPSCQueue.trace
  generalize (SPSCQueue.run Size (SPSCQueue.new mem) item calls).1 = q at hb hlen ⊢
  generalize (accepted (SPSCQueue.run Size (SPSCQueue.new mem) item calls).2.2).length = a
    at hlen ⊢
  generalize (delivered (SPSCQueue.run Size (SPSCQueue.new mem) item calls).2.2).length = d
    at hlen ⊢
  obtain ⟨hh, ht⟩ := hb
  have hw1 : (q.tail_ + 1) % 2 ^ 64 = q.tail_ + 1 := Nat.mod_eq_of_lt (by omega)
  have hm : (q.tail_ + 1) % Size = if q.tail_ + 1 < Size then q.tail_ + 1 else 0 := by
    rw [mod_of_lt_two_mul (by omega)]
    split_ifs <;> omega
  rw [SPSCQueue.push_fst, SPSCQueue.pop_fst, hw1, hm]
  simp only [Bool.not_eq_false', decide_eq_true_eq]
  refine ⟨⟨trivial, ?_⟩, trivial, ?_⟩
  · split_ifs at hlen ⊢ <;> omega
  · split_ifs at hlen <;> omega

/-- Witness of C4: four slots after three accepted pushes (the queue is full)
and one refused push. -/
theorem spsc_full_empty_iff_witness :
    2 ≤ 4 ∧ 4 < 2 ^ 64 ∧
    (SPSCQueue.push 4 (SPSCQueue.final 4 (SPSCQueue.new fun _ => 0) 0
        [.push 1, .push 2, .push 3, .push 4]) 5).1 = false ∧
    (accepted (SPSCQueue.trace 4 (SPSCQueue.new fun _ => 0) 0
        [.push 1, .push 2, .push 3, .push 4])).length =
      (delivered (SPSCQueue.trace 4 (SPSCQueue.new fun _ => 0) 0
        [.push 1, .push 2, .push 3, .push 4])).length + (4 - 1) := by
  have h := spsc_full_empty_iff 4 (by decide) (by norm_num) (fun _ => 0) 0
    [.push 1, .push 2, .push 3, .push 4] 5 6
  have hfull : (SPSCQueue.push 4 (SPSCQueue.final 4 (SPSCQueue.new fun _ => 0) 0
      [.push 1, .push 2, .push 3, .push 4]) 5).1 = false := by decide
  exact ⟨by decide, by norm_num, hfull, h.1.2.1 (h.1.1.1 hfull)⟩

/-- C5 (MPMCQueue FIFO in single-threaded use): for every `Size >= 2` and
every finite sequence of `push` and `pop` calls made one after another on a
freshly constructed queue, short enough that no counter or sequence number
reaches `2 ^ 64`, every call returns (one loop iteration is enough fuel) and
the values delivered by the successful pops are, in order, the first `k`
values accepted by the successful pushes. -/
theorem mpmc_fifo (Size : Nat) (hS : 2 ≤ Size) (mem : Nat → Node T) (item : T)
    (calls : List (Call T)) (hno : calls.length + Size ≤ 2 ^ 64) (fuel : Nat) :
    ∃ q out tr,
      MPMCQueue.run Size (fuel + 1) (MPMCQueue.new Size mem) item calls = some (q, out, tr) ∧
      delivered tr = (accepted tr).take (delivered tr).length := by
  obtain ⟨q, out, tr, hrun, _, hc⟩ := MPMCQueue.mpmc_run_contents hS fuel calls
    (MPMCQueue.new Size mem) item (MPMCQueue.inv_new Size mem) (by
      show 0 + calls.length + Size ≤ 2 ^ 64
      omega)
  refine ⟨q, out, tr, hrun, ?_⟩
  rw [MPMCQueue.mpmc_contents_new, List.nil_append] at hc
  rw [hc, take_length_append_left]

/-- Witness of C5: two slots, pushes and pops interleaved, one push refused on
the full queue and one pop on the empty queue. -/
theorem mpmc_fifo_witness :
    2 ≤ 2 ∧ [Call.push 1, .push 2, .push 3, .pop, .push 4, .pop, .pop, .pop].length + 2 ≤ 2 ^ 64 ∧
    (MPMCQueue.run 2 (0 + 1) (MPMCQueue.new 2 fun _ => ⟨0, 0⟩) 0
        [Call.push 1, .push 2, .push 3, .pop, .push 4, .pop, .pop, .pop]).map
      (fun r => (accepted r.2.2, delivered r.2.2)) = some ([1, 2, 4], [1, 2, 4]) ∧
    ∃ q out tr,
      MPMCQueue.run 2 (0 + 1) (MPMCQueue.new 2 fun _ => ⟨0, 0⟩) 0
        [Call.push 1, .push 2, .push 3, .pop, .push 4, .pop, .pop, .pop] = some (q, out, tr) ∧
      delivered tr = (accepted tr).take (delivered tr).length :=
  ⟨by decide, by norm_num, by decide,
    mpmc_fifo 2 (by decide) (fun _ => ⟨0, 0⟩) 0 _ (by norm_num) 0⟩

/-- C7, counterexample: a three-slot queue on which `push(0); pop(out)` is
called `2 ^ 64` times over, every call accepted. Both counters have then
wrapped to 0, so `dequeue_pos == enqueue_pos`, but slot 0 was last recycled at
position `2 ^ 64 - 1` and carries `(2 ^ 64 - 1 + 3) % 2 ^ 64 = 2`: `pop`
computes `diff = 2 - 1 > 0`, reloads the unchanged `dequeue_pos` and never
leaves its loop, so it does not return false. -/
theorem mpmc_pop_empty_after_wrap :
    MPMCQueue.run 3 1 (MPMCQueue.new 3 fun _ => ⟨0, 0⟩) 0 (MPMCQueue.rounds (2 ^ 64)) =
      some (MPMCQueue.exWrapped, 0, MPMCQueue.roundEvents (2 ^ 64)) ∧
    MPMCQueue.exWrapped.dequeue_pos_ = MPMCQueue.exWrapped.enqueue_pos_ ∧
    ∀ out fuel : Nat, MPMCQueue.pop 3 MPMCQueue.exWrapped out fuel = none :=
  ⟨MPMCQueue.reach_exWrapped 0, rfl, MPMCQueue.exWrapped_pop⟩

/-- C7, amended (MPMCQueue pop on an empty queue, counters below overflow): for
every `Size >= 1` and every state reached by calls made one after another,
each call starting with `enqueue_pos + Size < 2 ^ 64`, in which
`dequeue_pos == enqueue_pos`, `pop(out)` returns false after one loop
iteration and leaves both counters, every slot and the caller's `out`
unchanged; hence any number of pops made one after another all return
false. -/
theorem mpmc_pop_empty_unchanged (Size : Nat) (hS : 1 ≤ Size) (q : MPMCQueue T)
    (hr : MPMCQueue.Reachable Size q) (hempty : q.dequeue_pos_ = q.enqueue_pos_)
    (item : T) (fuel : Nat) :
    MPMCQueue.pop Size q item (fuel + 1) = some (false, item, q) ∧
    ∀ n : Nat, MPMCQueue.run Size (fuel + 1) q item (List.replicate n Call.pop) =
      some (q, item, List.replicate n (Event.popped false item)) := by
  have hp := MPMCQueue.mpmc_pop_refused Size q item fuel
    (MPMCQueue.reachable_empty_diff hS hr hempty)
  exact ⟨hp, MPMCQueue.mpmc_run_replicate_pop Size fuel item hp⟩

/-- Witness of C7 as amended: two slots after one push and one pop; both
counters are 1. -/
theorem mpmc_pop_empty_unchanged_witness :
    1 ≤ 2 ∧ MPMCQueue.Reachable 2 MPMCQueue.exDrained ∧
    MPMCQueue.exDrained.dequeue_pos_ = MPMCQueue.exDrained.enqueue_pos_ ∧
    MPMCQueue.pop 2 MPMCQueue.exDrained 5 (0 + 1) = some (false, 5, MPMCQueue.exDrained) ∧
    ∀ n : Nat, MPMCQueue.run 2 (0 + 1) MPMCQueue.exDrained 5 (List.replicate n Call.pop) =
      some (MPMCQueue.exDrained, 5, List.replicate n (Event.popped false 5)) :=
  ⟨by decide, MPMCQueue.reachable_exDrained, rfl,
    mpmc_pop_empty_unchanged 2 (by decide) MPMCQueue.exDrained MPMCQueue.reachable_exDrained
      rfl 5 0⟩

/-- C8 (LockFreeStack LIFO in single-threaded use): for every finite sequence
of `push` and `pop` calls made from one thread on a fresh stack, every call
returns and the trace is that of a last-in-first-out store: each successful
pop hands out the most recently pushed value not yet popped, and a pop fails
only on the empty stack. In particular after pushing `x1 .. xn` and nothing
else, `n` pops return `xn, .., x1` and the next pop returns false. -/
theorem stack_lifo (item : T) (calls : List (Call T)) (xs : List T) (fuel : Nat) :
    (∃ s out tr,
      LockFreeStack.run (fuel + 1) LockFreeStack.new item calls = some (s, out, tr) ∧
      LifoTrace [] tr) ∧
    (∃ s out,
      LockFreeStack.run (fuel + 1) LockFreeStack.new item
          (xs.map Call.push ++ List.replicate (xs.length + 1) Call.pop) =
        some (s, out, xs.map (fun x => Event.pushed x true) ++
          (xs.reverse.map (fun x => Event.popped true x) ++
            [Event.popped false (xs.head?.getD item)]))) := by
  constructor
  · obtain ⟨s, out, hrun⟩ := LockFreeStack.stack_run_refines fuel calls LockFreeStack.new item []
      LockFreeStack.holds_new
    exact ⟨s, out, _, hrun, lifoTrace_lifoSpec calls [] item⟩
  · obtain ⟨s, out, hrun⟩ := LockFreeStack.stack_run_refines fuel
      (xs.map Call.push ++ List.replicate (xs.length + 1) Call.pop) LockFreeStack.new item []
      LockFreeStack.holds_new
    refine ⟨s, out, ?_⟩
    rw [hrun, lifoSpec_pushes, List.append_nil, List.replicate_succ', ← List.length_reverse xs,
      lifoSpec_pops, List.getLast?_reverse]
    simp only [lifoSpec]

/-- Witness of C8: push 1, 2, 3; the pops return 3, 2, 1; the next pop returns
false. -/
theorem stack_lifo_witness :
    ∃ s out,
      LockFreeStack.run (0 + 1) LockFreeStack.new 0
          [Call.push 1, .push 2, .push 3, .pop, .pop, .pop, .pop] =
        some (s, out, [Event.pushed 1 true, .pushed 2 true, .pushed 3 true,
          .popped true 3, .popped true 2, .popped true 1, .popped false 1]) :=
  (stack_lifo 0 [] [1, 2, 3] 0).2

/-- C9 (LockFreeStack pop on an empty stack): when `head_` is null, `pop(out)`
returns false and leaves the stack (so `head_` stays null) and the caller's
`out` unchanged, hence any number of pops made one after another all return
false; and whenever `pop` returns false the stack was empty. -/
theorem stack_pop_empty_unchanged (s : LockFreeStack T) (item : T) (fuel : Nat) :
    (s.head_ = 0 →
      LockFreeStack.pop s item (fuel + 1) = some (false, item, s) ∧
      ∀ n : Nat, LockFreeStack.run (fuel + 1) s item (List.replicate n Call.pop) =
        some (s, item, List.replicate n (Event.popped false item))) ∧
    (∀ (fuel1 : Nat) (out : T) (s1 : LockFreeStack T),
      LockFreeStack.pop s item fuel1 = some (false, out, s1) → s.empty = true) := by
  constructor
  · intro h
    exact ⟨LockFreeStack.stack_pop_null s item fuel h,
      LockFreeStack.stack_run_replicate_pop fuel s item h⟩
  · intro fuel1 out s1 h
    have h0 := LockFreeStack.stack_pop_false_null h
    simp only [LockFreeStack.empty, h0, decide_True]

/-- Witness of C9: the fresh stack. -/
theorem stack_pop_empty_unchanged_witness :
    (LockFreeStack.new : LockFreeStack Nat).head_ = 0 ∧
    LockFreeStack.pop (LockFreeStack.new : LockFreeStack Nat) 7 (0 + 1) =
      some (false, 7, LockFreeStack.new) ∧
    (LockFreeStack.new : LockFreeStack Nat).empty = true :=
  ⟨rfl, ((stack_pop_empty_unchanged (LockFreeStack.new : LockFreeStack Nat) 7 0).1 rfl).1,
    (stack_pop_empty_unchanged (LockFreeStack.new : LockFreeStack Nat) 7 0).2 1 7
      LockFreeStack.new rfl⟩

/-- C10 (LockFreeStack push/pop round trip): every list `l` is the contents of
some stack, and for every stack holding `l` and every value `x`, `push(x)`
returns (there is no full condition) leaving `x` on top of `l`, after it
`empty()` is false, and the pop made next returns true with `out == x` and
leaves a stack holding exactly `l`, with the head pointer and every node as
before the push. -/
theorem stack_push_pop_roundtrip (l : List T) (x item : T) (fuel : Nat) :
    (∃ s : LockFreeStack T, LockFreeStack.Holds s l) ∧
    ∀ s : LockFreeStack T, LockFreeStack.Holds s l →
      ∃ s1, LockFreeStack.push s x (fuel + 1) = some s1 ∧
        LockFreeStack.Holds s1 (x :: l) ∧ s1.empty = false ∧
        ∃ s2, LockFreeStack.pop s1 item (fuel + 1) = some (true, x, s2) ∧
          LockFreeStack.Holds s2 l ∧ s2.head_ = s.head_ ∧ s2.heap.cells = s.heap.cells := by
  refine ⟨LockFreeStack.holds_exists l, ?_⟩
  intro s hs
  have hs1 := LockFreeStack.holds_push x hs
  obtain ⟨hb, hfree, hc⟩ := hs
  refine ⟨_, LockFreeStack.stack_push_result s x fuel, hs1, ?_, ?_⟩
  · simp only [LockFreeStack.empty, decide_eq_false_iff_not]
    exact hb
  · have hcells : Function.update
        (Function.update s.heap.cells s.heap.brk (some ⟨x, s.head_⟩)) s.heap.brk none =
        s.heap.cells := by
      rw [Function.update_idem, ← hfree s.heap.brk (Nat.le_refl _), Function.update_eq_self]
    refine ⟨_, LockFreeStack.stack_pop_node _ item fuel ⟨x, s.head_⟩ hb
      (Function.update_same _ _ _), ⟨Nat.succ_ne_zero _, ?_, ?_⟩, rfl, hcells⟩
    · intro a ha
      show Function.update (Function.update s.heap.cells s.heap.brk _) s.heap.brk none a = none
      rw [hcells]
      exact hfree a (Nat.le_of_succ_le ha)
    · show LockFreeStack.Chain
        (Function.update (Function.update s.heap.cells s.heap.brk _) s.heap.brk none) s.head_ l
      rw [hcells]
      exact hc

/-- Witness of C10: the stack holding 2, 1 (top first), pushing 3. -/
theorem stack_push_pop_roundtrip_witness :
    LockFreeStack.Holds LockFreeStack.exTwo [2, 1] ∧
    ∃ s1, LockFreeStack.push LockFreeStack.exTwo 3 (0 + 1) = some s1 ∧
      LockFreeStack.Holds s1 [3, 2, 1] ∧ s1.empty = false ∧
      ∃ s2, LockFreeStack.pop s1 0 (0 + 1) = some (true, 3, s2) ∧
        LockFreeStack.Holds s2 [2, 1] ∧ s2.head_ = LockFreeStack.exTwo.head_ ∧
        s2.heap.cells = LockFreeStack.exTwo.heap.cells :=
  ⟨LockFreeStack.holds_exTwo,
    (stack_push_pop_roundtrip [2, 1] 3 0 0).2 LockFreeStack.exTwo LockFreeStack.holds_exTwo⟩

/-- C11, counterexample: a three-slot `MPMCQueue` after `2 ^ 64 - 3` rounds of
`push(0); pop(out)` and four pushes, all accepted (the fourth, at position 0,
over the unconsumed third). In the state reached `push` returns false, the
`pop` made next returns true, and the `push` attempted immediately afterwards
returns false again: the slot it looks at, slot 1, was recycled at position
`2 ^ 64 - 3` and carries `(2 ^ 64 - 3 + 3) % 2 ^ 64 = 0`, one less than
`enqueue_pos = 1`. -/
theorem mpmc_no_recovery_after_wrap :
    MPMCQueue.run 3 1 (MPMCQueue.new 3 fun _ => ⟨0, 0⟩) 0
        (MPMCQueue.rounds (2 ^ 64 - 3) ++ [.push 1, .push 2, .push 3, .push 4]) =
      some (MPMCQueue.exOver, 0, MPMCQueue.roundEvents (2 ^ 64 - 3) ++
        [.pushed 1 true, .pushed 2 true, .pushed 3 true, .pushed 4 true]) ∧
    ∀ fuel : Nat,
      MPMCQueue.push 3 MPMCQueue.exOver 5 (fuel + 1) = some (false, MPMCQueue.exOver) ∧
      MPMCQueue.pop 3 MPMCQueue.exOver 0 (fuel + 1) =
        some (true, 1, MPMCQueue.exOverPopped) ∧
      MPMCQueue.push 3 MPMCQueue.exOverPopped 5 (fuel + 1) =
        some (false, MPMCQueue.exOverPopped) :=
  ⟨MPMCQueue.reach_exOver 0, fun fuel =>
    ⟨MPMCQueue.exOver_push 5 fuel, MPMCQueue.exOver_pop 0 fuel,
      MPMCQueue.exOverPopped_push 5 fuel⟩⟩

/-- C11, amended (recovery from full, `MPMCQueue` counters below overflow): for
each ring buffer with `Size >= 2`, from any sequentially reachable state in
which `push` returns false, one `pop` returns true and the `push` attempted
immediately afterwards returns true. The first part is `SPSCQueue` (states
reached by a run from a fresh queue, `Size` a `size_t`), the second
`MPMCQueue` (states reached by calls each starting with
`enqueue_pos + Size < 2 ^ 64`; each call returns after one loop iteration). -/
theorem ring_recover_from_full (Size : Nat) (hS : 2 ≤ Size) :
    (Size < 2 ^ 64 → ∀ (mem : Nat → T) (item0 : T) (calls : List (Call T)) (x item y : T),
      (SPSCQueue.push Size (SPSCQueue.final Size (SPSCQueue.new mem) item0 calls) x).1 = false →
      (SPSCQueue.pop Size (SPSCQueue.final Size (SPSCQueue.new mem) item0 calls) item).1 = true ∧
      (SPSCQueue.push Size
        (SPSCQueue.pop Size (SPSCQueue.final Size (SPSCQueue.new mem) item0 calls) item).2.2
        y).1 = true) ∧
    (∀ (q : MPMCQueue T) (x item y : T) (fuel0 fuel : Nat) (q0 : MPMCQueue T),
      MPMCQueue.Reachable Size q → MPMCQueue.push Size q x fuel0 = some (false, q0) →
      ∃ out q1 q2, MPMCQueue.pop Size q item (fuel + 1) = some (true, out, q1) ∧
        MPMCQueue.push Size q1 y (fuel + 1) = some (true, q2)) := by
  constructor
  · intro hW mem item0 calls x item y hfull
    exact SPSCQueue.pop_push_of_full hS hW
      (SPSCQueue.run_inBounds calls _ item0 (SPSCQueue.inBounds_new (by omega) mem))
      x item y hfull
  · intro q x item y fuel0 fuel q0 hr hfull
    exact MPMCQueue.mpmc_pop_push_of_full hS (MPMCQueue.inv_of_reachable hS hr) hfull item y fuel

/-- Witness of C11 as amended: a four-slot `SPSCQueue` after three accepted
pushes, and the two-slot `MPMCQueue` after two accepted pushes. -/
theorem ring_recover_from_full_witness :
    (2 ≤ 4 ∧ 4 < 2 ^ 64 ∧
      (SPSCQueue.push 4 (SPSCQueue.final 4 (SPSCQueue.new fun _ => 0) 0
        [.push 1, .push 2, .push 3]) 4).1 = false ∧
      (SPSCQueue.pop 4 (SPSCQueue.final 4 (SPSCQueue.new fun _ => 0) 0
        [.push 1, .push 2, .push 3]) 0).1 = true ∧
      (SPSCQueue.push 4 (SPSCQueue.pop 4 (SPSCQueue.final 4 (SPSCQueue.new fun _ => 0) 0
        [.push 1, .push 2, .push 3]) 0).2.2 5).1 = true) ∧
    (2 ≤ 2 ∧ MPMCQueue.Reachable 2 MPMCQueue.exFull ∧
      MPMCQueue.push 2 MPMCQueue.exFull 9 1 = some (false, MPMCQueue.exFull) ∧
      ∃ out q1 q2, MPMCQueue.pop 2 MPMCQueue.exFull 0 (0 + 1) = some (true, out, q1) ∧
        MPMCQueue.push 2 q1 5 (0 + 1) = some (true, q2)) :=
  ⟨⟨by decide, by norm_num, by decide,
      (ring_recover_from_full 4 (by decide)).1 (by norm_num) (fun _ => 0) 0
        [.push 1, .push 2, .push 3] 4 0 5 (by decide)⟩,
    ⟨by decide, MPMCQueue.reachable_exFull, rfl,
      (ring_recover_from_full 2 (by decide)).2 MPMCQueue.exFull 9 0 5 1 0 MPMCQueue.exFull
        MPMCQueue.reachable_exFull rfl⟩⟩

/-- C12 (concrete SPSC scenario): on a fresh `SPSCQueue<int, 4>`, whatever the
slots and the caller's variable hold at first, `push(1)`, `push(2)`, `push(3)`
return true, `push(4)` returns false, three pops return true with 1, 2, 3 in
that order, and a fourth pop returns false. -/
theorem spsc_scenario_four (mem : Nat → Int) (item : Int) :
    SPSCQueue.trace 4 (SPSCQueue.new mem) item
        [.push 1, .push 2, .push 3, .push 4, .pop, .pop, .pop, .pop] =
      [.pushed 1 true, .pushed 2 true, .pushed 3 true, .pushed 4 false,
        .popped true 1, .popped true 2, .popped true 3, .popped false 3] := by
  simp [SPSCQueue.trace, SPSCQueue.run, SPSCQueue.step, SPSCQueue.push, SPSCQueue.pop,
    SPSCQueue.new, Function.update]

/-- C13, counterexample: with capacity 1 both constructors return an instance,
and the instance is used without any error being raised: the `SPSCQueue<int, 1>`
refuses a push on the empty queue, and the `MPMCQueue<int, 1>` accepts two
pushes in a row, the second overwriting the first item before any pop. -/
theorem ring_capacity_one_constructed :
    SPSCQueue.construct 1 (fun _ => (0 : Int)) = some ⟨fun _ => 0, 0, 0⟩ ∧
    SPSCQueue.push 1 (⟨fun _ => 0, 0, 0⟩ : SPSCQueue Int) 5 = (false, ⟨fun _ => 0, 0, 0⟩) ∧
    (MPMCQueue.construct 1 (fun _ => (⟨0, 0⟩ : Node Int))).isSome = true ∧
    (MPMCQueue.run 1 1 (MPMCQueue.new 1 fun _ => (⟨0, 0⟩ : Node Int)) 0 [.push 1, .push 2]).map
        (fun r => (r.2.2, (r.1.buffer_ 0).data, r.1.enqueue_pos_, r.1.dequeue_pos_)) =
      some ([.pushed 1 true, .pushed 2 true], 2, 2, 0) :=
  ⟨rfl, rfl, rfl, by decide⟩

/-- C13, amended: the constructors make no capacity check. For every capacity,
capacity 1 included, construction returns an instance in the ordinary initial
state: `head = tail = 0` and the slots untouched for `SPSCQueue`;
`enqueue_pos = dequeue_pos = 0`, slot `i` with sequence `i` and its payload
untouched for `MPMCQueue`. -/
theorem ring_construct_unchecked (Size : Nat) (mem : Nat → T) (nodes : Nat → Node T) :
    SPSCQueue.construct Size mem = some ⟨mem, 0, 0⟩ ∧
    ∃ q, MPMCQueue.construct Size nodes = some q ∧ q.enqueue_pos_ = 0 ∧ q.dequeue_pos_ = 0 ∧
      ∀ i, i < Size → (q.buffer_ i).sequence = i ∧ (q.buffer_ i).data = (nodes i).data := by
  refine ⟨rfl, _, rfl, rfl, rfl, ?_⟩
  intro i hi
  show ((List.range Size).foldl _ nodes i).sequence = i ∧
    ((List.range Size).foldl _ nodes i).data = (nodes i).data
  rw [MPMCQueue.foldl_sequence, if_pos hi]
  exact ⟨rfl, rfl⟩

/-- Witness of C13 as amended: capacity 1. -/
theorem ring_construct_unchecked_witness :
    SPSCQueue.construct 1 (fun _ => (0 : Int)) = some ⟨fun _ => 0, 0, 0⟩ ∧
    ∃ q, MPMCQueue.construct 1 (fun _ => (⟨7, 0⟩ : Node Int)) = some q ∧
      q.enqueue_pos_ = 0 ∧ q.dequeue_pos_ = 0 ∧
      ∀ i, i < 1 → (q.buffer_ i).sequence = i ∧ (q.buffer_ i).data = 0 :=
  ring_construct_unchecked 1 (fun _ => (0 : Int)) (fun _ => (⟨7, 0⟩ : Node Int))

/-- C16 (SPSC single-writer frame): in every state, `push` leaves `head` and
every slot other than `buffer[tail]` as they are, whether it returns true or
false, and `pop` leaves `tail` and every slot as they are; so a successful
push changes only `buffer[tail]` and `tail`, a successful pop only `head`. -/
theorem spsc_frame (Size : Nat) (q : SPSCQueue T) (item out : T) :
    ((SPSCQueue.push Size q item).2.head_ = q.head_ ∧
      ∀ i, i ≠ q.tail_ → (SPSCQueue.push Size q item).2.buffer_ i = q.buffer_ i) ∧
    ((SPSCQueue.pop Size q out).2.2.tail_ = q.tail_ ∧
      (SPSCQueue.pop Size q out).2.2.buffer_ = q.buffer_) := by
  constructor
  · by_cases h : (q.tail_ + 1) % 2 ^ 64 % Size = q.head_
    · rw [SPSCQueue.push_full item h]
      exact ⟨rfl, fun _ _ => rfl⟩
    · simp only [SPSCQueue.push, if_neg h]
      exact ⟨trivial, fun i hi => Function.update_noteq hi _ _⟩
  · by_cases h : q.head_ = q.tail_
    · rw [SPSCQueue.pop_empty Size out h]
      exact ⟨rfl, rfl⟩
    · rw [SPSCQueue.pop_snd_of_ne out h]
      exact ⟨rfl, rfl⟩

/-- Witness of C16: a successful push into slot 1 of four leaves slot 0. -/
theorem spsc_frame_witness :
    (0 : Nat) ≠ 1 ∧
    (SPSCQueue.push 4 (⟨fun i => 10 * i, 0, 1⟩ : SPSCQueue Nat) 7).1 = true ∧
    (SPSCQueue.push 4 (⟨fun i => 10 * i, 0, 1⟩ : SPSCQueue Nat) 7).2.buffer_ 0 = 10 * 0 :=
  ⟨by decide, by decide,
    (spsc_frame 4 (⟨fun i => 10 * i, 0, 1⟩ : SPSCQueue Nat) 7 0).1.2 0 (by decide)⟩

/-- C17 (SPSC index bounds): for every `Size >= 1`, in every state reached from
a fresh queue by `push` and `pop` calls, `head < Size` and `tail < Size`; these
are the indices `push` writes (`buffer_[tail]`) and `pop` reads
(`buffer_[head]`). -/
theorem spsc_index_bounds (Size : Nat) (hS : 1 ≤ Size) (mem : Nat → T) (item : T)
    (calls : List (Call T)) :
    (SPSCQueue.final Size (SPSCQueue.new mem) item calls).head_ < Size ∧
    (SPSCQueue.final Size (SPSCQueue.new mem) item calls).tail_ < Size :=
  SPSCQueue.run_inBounds calls _ item (SPSCQueue.inBounds_new hS mem)

/-- Witness of C17: three slots, the tail wrapping round to 0. -/
theorem spsc_index_bounds_witness :
    1 ≤ 3 ∧
    (SPSCQueue.final 3 (SPSCQueue.new fun _ => 0) 0
      [.push 1, .push 2, .pop, .push 3, .pop]).head_ = 2 ∧
    (SPSCQueue.final 3 (SPSCQueue.new fun _ => 0) 0
      [.push 1, .push 2, .pop, .push 3, .pop]).tail_ = 0 ∧
    (SPSCQueue.final 3 (SPSCQueue.new fun _ => 0) 0
      [.push 1, .push 2, .pop, .push 3, .pop]).head_ < 3 ∧
    (SPSCQueue.final 3 (SPSCQueue.new fun _ => 0) 0
      [.push 1, .push 2, .pop, .push 3, .pop]).tail_ < 3 :=
  ⟨by decide, by decide, by decide,
    spsc_index_bounds 3 (by decide) (fun _ => 0) 0 [.push 1, .push 2, .pop, .push 3, .pop]⟩

/-- C18 (MPMC push success postcondition): when `push(item)` is called with
`enqueue_pos == p` and the slot `p % Size` has `sequence == p`, it returns true
after one loop iteration; the slot's data is `item`, its sequence and
`enqueue_pos` are `p + 1` (a `size_t` sum), and `dequeue_pos` and every other
slot are as before. -/
theorem mpmc_push_success (Size : Nat) (q : MPMCQueue T) (item : T) (fuel : Nat)
    (hseq : (q.buffer_ (q.enqueue_pos_ % Size)).sequence = q.enqueue_pos_) :
    ∃ q1, MPMCQueue.push Size q item (fuel + 1) = some (true, q1) ∧
      (q1.buffer_ (q.enqueue_pos_ % Size)).data = item ∧
      (q1.buffer_ (q.enqueue_pos_ % Size)).sequence = (q.enqueue_pos_ + 1) % 2 ^ 64 ∧
      q1.enqueue_pos_ = (q.enqueue_pos_ + 1) % 2 ^ 64 ∧
      q1.dequeue_pos_ = q.dequeue_pos_ ∧
      ∀ i, i ≠ q.enqueue_pos_ % Size → q1.buffer_ i = q.buffer_ i := by
  refine ⟨_, MPMCQueue.mpmc_push_ready Size q item fuel
    (by rw [hseq]; exact intptr_sub_self _), ?_, ?_, rfl, rfl, ?_⟩
  · show (Function.update q.buffer_ _ _ _).data = item
    rw [Function.update_same]
  · show (Function.update q.buffer_ _ _ _).sequence = _
    rw [Function.update_same]
  · intro i hi
    exact Function.update_noteq hi _ _

/-- Witness of C18: the two-slot queue holding one item, `p = 1`. -/
theorem mpmc_push_success_witness :
    (MPMCQueue.exOne.buffer_ (MPMCQueue.exOne.enqueue_pos_ % 2)).sequence =
      MPMCQueue.exOne.enqueue_pos_ ∧
    ∃ q1, MPMCQueue.push 2 MPMCQueue.exOne 8 (0 + 1) = some (true, q1) ∧
      (q1.buffer_ (MPMCQueue.exOne.enqueue_pos_ % 2)).data = 8 ∧
      (q1.buffer_ (MPMCQueue.exOne.enqueue_pos_ % 2)).sequence =
        (MPMCQueue.exOne.enqueue_pos_ + 1) % 2 ^ 64 ∧
      q1.enqueue_pos_ = (MPMCQueue.exOne.enqueue_pos_ + 1) % 2 ^ 64 ∧
      q1.dequeue_pos_ = MPMCQueue.exOne.dequeue_pos_ ∧
      ∀ i, i ≠ MPMCQueue.exOne.enqueue_pos_ % 2 → q1.buffer_ i = MPMCQueue.exOne.buffer_ i :=
  ⟨by decide, mpmc_push_success 2 MPMCQueue.exOne 8 0 (by decide)⟩

/-- C19 (MPMC pop success postcondition): when `pop(out)` is called with
`dequeue_pos == p` and the slot `p % Size` has `sequence == p + 1` (a `size_t`
sum), it returns true after one loop iteration; `out` receives the slot's
data, the slot's sequence is `p + Size` and `dequeue_pos` is `p + 1` (`size_t`
sums), and `enqueue_pos`, every slot's data and every other slot's sequence
are as before. -/
theorem mpmc_pop_success (Size : Nat) (q : MPMCQueue T) (out : T) (fuel : Nat)
    (hseq : (q.buffer_ (q.dequeue_pos_ % Size)).sequence = (q.dequeue_pos_ + 1) % 2 ^ 64) :
    ∃ q1, MPMCQueue.pop Size q out (fuel + 1) =
        some (true, (q.buffer_ (q.dequeue_pos_ % Size)).data, q1) ∧
      (q1.buffer_ (q.dequeue_pos_ % Size)).sequence = (q.dequeue_pos_ + Size) % 2 ^ 64 ∧
      q1.dequeue_pos_ = (q.dequeue_pos_ + 1) % 2 ^ 64 ∧
      q1.enqueue_pos_ = q.enqueue_pos_ ∧
      (∀ i, (q1.buffer_ i).data = (q.buffer_ i).data) ∧
      ∀ i, i ≠ q.dequeue_pos_ % Size → (q1.buffer_ i).sequence = (q.buffer_ i).sequence := by
  refine ⟨_, MPMCQueue.mpmc_pop_ready Size q out fuel
    (by rw [hseq]; exact intptr_sub_self _), ?_, rfl, rfl, ?_, ?_⟩
  · show (Function.update q.buffer_ _ _ _).sequence = _
    rw [Function.update_same]
  · intro i
    show (Function.update q.buffer_ _ _ i).data = _
    by_cases hi : i = q.dequeue_pos_ % Size
    · rw [hi, Function.update_same]
    · rw [Function.update_noteq hi]
  · intro i hi
    show (Function.update q.buffer_ _ _ i).sequence = _
    rw [Function.update_noteq hi]

/-- Witness of C19: the two-slot queue holding one item, `p = 0`. -/
theorem mpmc_pop_success_witness :
    (MPMCQueue.exOne.buffer_ (MPMCQueue.exOne.dequeue_pos_ % 2)).sequence =
      (MPMCQueue.exOne.dequeue_pos_ + 1) % 2 ^ 64 ∧
    ∃ q1, MPMCQueue.pop 2 MPMCQueue.exOne 0 (0 + 1) = some (true, 7, q1) ∧
      (q1.buffer_ (MPMCQueue.exOne.dequeue_pos_ % 2)).sequence =
        (MPMCQueue.exOne.dequeue_pos_ + 2) % 2 ^ 64 ∧
      q1.dequeue_pos_ = (MPMCQueue.exOne.dequeue_pos_ + 1) % 2 ^ 64 ∧
      q1.enqueue_pos_ = MPMCQueue.exOne.enqueue_pos_ ∧
      (∀ i, (q1.buffer_ i).data = (MPMCQueue.exOne.buffer_ i).data) ∧
      ∀ i, i ≠ MPMCQueue.exOne.dequeue_pos_ % 2 →
        (q1.buffer_ i).sequence = (MPMCQueue.exOne.buffer_ i).sequence :=
  ⟨by decide, mpmc_pop_success 2 MPMCQueue.exOne 0 0 (by decide)⟩

/-- C20 (MPMC sequence-number invariant): a fresh queue has both counters 0 and
every slot `i` with sequence `i`; and for `Size >= 2`, in every state reachable
by calls made one after another (counters below overflow),
`dequeue_pos <= enqueue_pos <= dequeue_pos + Size`, every position `p` with
`dequeue_pos <= p < enqueue_pos` has its slot `p % Size` at sequence `p + 1`,
and every position `p` with `enqueue_pos <= p < dequeue_pos + Size` has its
slot at sequence `p`. -/
theorem mpmc_sequence_invariant (Size : Nat) :
    (∀ (mem : Nat → Node T),
      (MPMCQueue.new Size mem).enqueue_pos_ = 0 ∧ (MPMCQueue.new Size mem).dequeue_pos_ = 0 ∧
      ∀ i, i < Size → ((MPMCQueue.new Size mem).buffer_ i).sequence = i) ∧
    (2 ≤ Size → ∀ q : MPMCQueue T, MPMCQueue.Reachable Size q →
      q.dequeue_pos_ ≤ q.enqueue_pos_ ∧ q.enqueue_pos_ ≤ q.dequeue_pos_ + Size ∧
      (∀ p, q.dequeue_pos_ ≤ p → p < q.enqueue_pos_ →
        (q.buffer_ (p % Size)).sequence = p + 1) ∧
      (∀ p, q.enqueue_pos_ ≤ p → p < q.dequeue_pos_ + Size →
        (q.buffer_ (p % Size)).sequence = p)) := by
  constructor
  · intro mem
    exact ⟨rfl, rfl, fun i hi => MPMCQueue.new_sequence mem hi⟩
  · intro hS q hr
    obtain ⟨h1, h2, _, h4, h5⟩ := MPMCQueue.inv_of_reachable hS hr
    exact ⟨h1, h2, h4, h5⟩

/-- Witness of C20: the two-slot queue after two accepted pushes; positions 0
and 1 are readable. -/
theorem mpmc_sequence_invariant_witness :
    2 ≤ 2 ∧ MPMCQueue.Reachable 2 MPMCQueue.exFull ∧
    MPMCQueue.exFull.dequeue_pos_ ≤ MPMCQueue.exFull.enqueue_pos_ ∧
    MPMCQueue.exFull.enqueue_pos_ ≤ MPMCQueue.exFull.dequeue_pos_ + 2 ∧
    (∀ p, MPMCQueue.exFull.dequeue_pos_ ≤ p → p < MPMCQueue.exFull.enqueue_pos_ →
      (MPMCQueue.exFull.buffer_ (p % 2)).sequence = p + 1) ∧
    (∀ p, MPMCQueue.exFull.enqueue_pos_ ≤ p → p < MPMCQueue.exFull.dequeue_pos_ + 2 →
      (MPMCQueue.exFull.buffer_ (p % 2)).sequence = p) :=
  ⟨by decide, MPMCQueue.reachable_exFull,
    (mpmc_sequence_invariant 2).2 (by decide) MPMCQueue.exFull MPMCQueue.reachable_exFull⟩

/-- C21, counterexample: the three-slot queue after `2 ^ 64` rounds of
`push(0); pop(out)`, made from one thread. Both counters are 0 and slot 0
carries the sequence number 2, so the first iteration of `push` computes
`diff = 2 - 0 > 0` and that of `pop` computes `diff = 2 - 1 > 0`: both take
the reload branch, read the same counter again, and no number of iterations
makes either call return. -/
theorem mpmc_loops_spin_after_wrap :
    MPMCQueue.run 3 1 (MPMCQueue.new 3 fun _ => ⟨0, 0⟩) 0 (MPMCQueue.rounds (2 ^ 64)) =
      some (MPMCQueue.exWrapped, 0, MPMCQueue.roundEvents (2 ^ 64)) ∧
    0 < intptr_sub
      (MPMCQueue.exWrapped.buffer_ (MPMCQueue.exWrapped.enqueue_pos_ % 3)).sequence
      MPMCQueue.exWrapped.enqueue_pos_ ∧
    0 < intptr_sub
      (MPMCQueue.exWrapped.buffer_ (MPMCQueue.exWrapped.dequeue_pos_ % 3)).sequence
      ((MPMCQueue.exWrapped.dequeue_pos_ + 1) % 2 ^ 64) ∧
    (∀ item fuel : Nat, MPMCQueue.push 3 MPMCQueue.exWrapped item fuel = none) ∧
    ∀ out fuel : Nat, MPMCQueue.pop 3 MPMCQueue.exWrapped out fuel = none := by
  refine ⟨MPMCQueue.reach_exWrapped 0, ?_, ?_, MPMCQueue.exWrapped_push,
    MPMCQueue.exWrapped_pop⟩
  · show 0 < intptr_sub 2 0
    unfold intptr_sub toIntptr
    split_ifs <;> omega
  · show 0 < intptr_sub 2 ((0 + 1) % 2 ^ 64)
    unfold intptr_sub toIntptr
    split_ifs <;> omega

/-- C21, amended (MPMC loops terminate without contention, counters below
overflow): for every `Size >= 2` and every state reached by calls made one
after another, each call starting with `enqueue_pos + Size < 2 ^ 64`, the
first iteration of the loop of `push` and of the loop of `pop` never computes
`diff > 0`, and each loop is left in that iteration: one unit of fuel gives
the result, and more fuel gives the same result. -/
theorem mpmc_one_iteration (Size : Nat) (hS : 2 ≤ Size) (q : MPMCQueue T)
    (hr : MPMCQueue.Reachable Size q) (item out : T) :
    (¬ 0 < intptr_sub (q.buffer_ (q.enqueue_pos_ % Size)).sequence q.enqueue_pos_ ∧
      (MPMCQueue.push_loop Size q q.enqueue_pos_ 1).isSome = true ∧
      (MPMCQueue.push Size q item 1).isSome = true ∧
      ∀ fuel, MPMCQueue.push Size q item (fuel + 1) = MPMCQueue.push Size q item 1) ∧
    (¬ 0 < intptr_sub (q.buffer_ (q.dequeue_pos_ % Size)).sequence
        ((q.dequeue_pos_ + 1) % 2 ^ 64) ∧
      (MPMCQueue.pop_loop Size q q.dequeue_pos_ 1).isSome = true ∧
      (MPMCQueue.pop Size q out 1).isSome = true ∧
      ∀ fuel, MPMCQueue.pop Size q out (fuel + 1) = MPMCQueue.pop Size q out 1) := by
  have hI := MPMCQueue.inv_of_reachable hS hr
  constructor
  · rcases MPMCQueue.inv_push_diff hS hI with ⟨_, hd⟩ | ⟨_, hd⟩
    · refine ⟨by omega, ?_, ?_, ?_⟩
      · rw [MPMCQueue.mpmc_push_loop_zero_diff Size q 0 hd]
        rfl
      · rw [MPMCQueue.mpmc_push_ready Size q item 0 hd]
        rfl
      · intro fuel
        rw [MPMCQueue.mpmc_push_ready Size q item fuel hd,
          MPMCQueue.mpmc_push_ready Size q item 0 hd]
    · refine ⟨by omega, ?_, ?_, ?_⟩
      · rw [MPMCQueue.mpmc_push_loop_neg_diff Size q 0 hd]
        rfl
      · rw [MPMCQueue.mpmc_push_refused Size q item 0 hd]
        rfl
      · intro fuel
        rw [MPMCQueue.mpmc_push_refused Size q item fuel hd,
          MPMCQueue.mpmc_push_refused Size q item 0 hd]
  · rcases MPMCQueue.inv_pop_diff (by omega) hI with ⟨_, hd⟩ | ⟨_, hd⟩
    · refine ⟨by omega, ?_, ?_, ?_⟩
      · rw [MPMCQueue.mpmc_pop_loop_zero_diff Size q 0 hd]
        rfl
      · rw [MPMCQueue.mpmc_pop_ready Size q out 0 hd]
        rfl
      · intro fuel
        rw [MPMCQueue.mpmc_pop_ready Size q out fuel hd,
          MPMCQueue.mpmc_pop_ready Size q out 0 hd]
    · refine ⟨by omega, ?_, ?_, ?_⟩
      · rw [MPMCQueue.mpmc_pop_loop_neg_diff Size q 0 hd]
        rfl
      · rw [MPMCQueue.mpmc_pop_refused Size q out 0 hd]
        rfl
      · intro fuel
        rw [MPMCQueue.mpmc_pop_refused Size q out fuel hd,
          MPMCQueue.mpmc_pop_refused Size q out 0 hd]

/-- Witness of C21 as amended: the two-slot queue holding one item; push and
pop both succeed in their first iteration. -/
theorem mpmc_one_iteration_witness :
    2 ≤ 2 ∧ MPMCQueue.Reachable 2 MPMCQueue.exOne ∧
    (MPMCQueue.push_loop 2 MPMCQueue.exOne MPMCQueue.exOne.enqueue_pos_ 1).isSome = true ∧
    (MPMCQueue.pop_loop 2 MPMCQueue.exOne MPMCQueue.exOne.dequeue_pos_ 1).isSome = true ∧
    ∀ fuel, MPMCQueue.pop 2 MPMCQueue.exOne 0 (fuel + 1) = MPMCQueue.pop 2 MPMCQueue.exOne 0 1 :=
  ⟨by decide, MPMCQueue.reachable_exOne,
    (mpmc_one_iteration 2 (by decide) MPMCQueue.exOne MPMCQueue.reachable_exOne 8 0).1.2.1,
    (mpmc_one_iteration 2 (by decide) MPMCQueue.exOne MPMCQueue.reachable_exOne 8 0).2.2.1,
    (mpmc_one_iteration 2 (by decide) MPMCQueue.exOne MPMCQueue.reachable_exOne 8 0).2.2.2.2⟩

/-- C23, counterexample: on a three-slot queue neither direction of the
equivalence survives the wrap of the counters. After `2 ^ 64 - 3` rounds of
`push(0); pop(out)` and three accepted pushes, three accepted items are
unpopped and the `size_t` difference `enqueue_pos - dequeue_pos` is 3, yet the
next push returns true, storing over the unconsumed third item. After
`2 ^ 64` rounds nothing is unpopped and the difference is 0, yet no push
returns true: the call does not return at all. -/
theorem mpmc_push_over_full_after_wrap :
    (MPMCQueue.run 3 1 (MPMCQueue.new 3 fun _ => ⟨0, 0⟩) 0
        (MPMCQueue.rounds (2 ^ 64 - 3) ++ [.push 1, .push 2, .push 3]) =
      some (MPMCQueue.exBrim, 0, MPMCQueue.roundEvents (2 ^ 64 - 3) ++
        [.pushed 1 true, .pushed 2 true, .pushed 3 true]) ∧
      (accepted (MPMCQueue.roundEvents (2 ^ 64 - 3) ++
        [.pushed 1 true, .pushed 2 true, .pushed 3 true])).length =
        (delivered (MPMCQueue.roundEvents (2 ^ 64 - 3) ++
          [.pushed 1 true, .pushed 2 true, .pushed 3 true])).length + 3 ∧
      (MPMCQueue.exBrim.enqueue_pos_ + 2 ^ 64 - MPMCQueue.exBrim.dequeue_pos_) % 2 ^ 64 = 3 ∧
      ∀ fuel : Nat,
        MPMCQueue.push 3 MPMCQueue.exBrim 4 (fuel + 1) = some (true, MPMCQueue.exOver)) ∧
    (MPMCQueue.run 3 1 (MPMCQueue.new 3 fun _ => ⟨0, 0⟩) 0 (MPMCQueue.rounds (2 ^ 64)) =
      some (MPMCQueue.exWrapped, 0, MPMCQueue.roundEvents (2 ^ 64)) ∧
      MPMCQueue.exWrapped.enqueue_pos_ - MPMCQueue.exWrapped.dequeue_pos_ = 0 ∧
      ∀ item fuel : Nat, MPMCQueue.push 3 MPMCQueue.exWrapped item fuel = none) := by
  refine ⟨⟨MPMCQueue.reach_exBrim 0, ?_, rfl, MPMCQueue.exBrim_push⟩,
    MPMCQueue.reach_exWrapped 0, rfl, MPMCQueue.exWrapped_push⟩
  rw [MPMCQueue.accepted_roundEvents, MPMCQueue.delivered_roundEvents]
  rfl

/-- C23, amended (MPMC usable capacity is `Size`, counters below overflow): for
every `Size >= 2` and every state reached by calls made one after another,
each call starting with `enqueue_pos + Size < 2 ^ 64`, `push` returns, and it
returns true iff `enqueue_pos - dequeue_pos < Size`, the counters being in
order; in particular (for `Size` below `2 ^ 63`) `Size` pushes in a row on a
fresh queue all return true and the push after them returns false. -/
theorem mpmc_capacity_is_size (Size : Nat) (hS : 2 ≤ Size) :
    (∀ (q : MPMCQueue T) (item : T) (fuel : Nat), MPMCQueue.Reachable Size q →
      q.dequeue_pos_ ≤ q.enqueue_pos_ ∧
      ∃ ok q1, MPMCQueue.push Size q item (fuel + 1) = some (ok, q1) ∧
        (ok = true ↔ q.enqueue_pos_ - q.dequeue_pos_ < Size)) ∧
    (Size < 2 ^ 63 → ∀ (mem : Nat → Node T) (item : T) (xs : List T) (y : T) (fuel : Nat),
      xs.length = Size →
      ∃ q1, MPMCQueue.run Size (fuel + 1) (MPMCQueue.new Size mem) item
          (xs.map Call.push ++ [Call.push y]) =
        some (q1, item, xs.map (fun x => Event.pushed x true) ++ [Event.pushed y false])) := by
  constructor
  · intro q item fuel hr
    have hI := MPMCQueue.inv_of_reachable hS hr
    refine ⟨hI.1, ?_⟩
    have h1 := hI.1
    rcases MPMCQueue.inv_push_diff hS hI with ⟨hroom, hd⟩ | ⟨hfull, hd⟩
    · exact ⟨true, _, MPMCQueue.mpmc_push_ready Size q item fuel hd,
        ⟨fun _ => by omega, fun _ => rfl⟩⟩
    · refine ⟨false, _, MPMCQueue.mpmc_push_refused Size q item fuel hd, ?_⟩
      constructor
      · intro h
        cases h
      · intro h
        omega
  · intro hSz mem item xs y fuel hlen
    obtain ⟨q1, hI1, he, hd, hrun⟩ := MPMCQueue.mpmc_run_pushes (by omega) fuel xs
      (MPMCQueue.new Size mem) item [Call.push y] (MPMCQueue.inv_new Size mem)
      (by
        show 0 + xs.length ≤ 0 + Size
        omega)
      (by
        show 0 + xs.length + Size ≤ 2 ^ 64
        omega)
    have he0 : q1.enqueue_pos_ = q1.dequeue_pos_ + Size := by
      rw [he, hd]
      show 0 + xs.length = 0 + Size
      omega
    have hp := MPMCQueue.mpmc_push_refused Size q1 y fuel (MPMCQueue.inv_full_diff hS hI1 he0)
    refine ⟨q1, hrun (q1, item, [Event.pushed y false]) ?_⟩
    simp only [MPMCQueue.run, MPMCQueue.step, hp, Option.map_some']

/-- Witness of C23 as amended: the full two-slot queue refuses the push, the
fresh one takes two pushes and refuses the third. -/
theorem mpmc_capacity_is_size_witness :
    2 ≤ 2 ∧ MPMCQueue.Reachable 2 MPMCQueue.exFull ∧
    (∃ ok q1, MPMCQueue.push 2 MPMCQueue.exFull 9 (0 + 1) = some (ok, q1) ∧
      (ok = true ↔ MPMCQueue.exFull.enqueue_pos_ - MPMCQueue.exFull.dequeue_pos_ < 2)) ∧
    2 < 2 ^ 63 ∧ [7, 8].length = 2 ∧
    ∃ q1, MPMCQueue.run 2 (0 + 1) (MPMCQueue.new 2 fun _ => ⟨0, 0⟩) 0
        ([7, 8].map Call.push ++ [Call.push 9]) =
      some (q1, 0, [7, 8].map (fun x => Event.pushed x true) ++ [Event.pushed 9 false]) :=
  ⟨by decide, MPMCQueue.reachable_exFull,
    ((mpmc_capacity_is_size 2 (by decide)).1 MPMCQueue.exFull 9 0 MPMCQueue.reachable_exFull).2,
    by norm_num, rfl,
    (mpmc_capacity_is_size 2 (by decide)).2 (by norm_num) (fun _ => ⟨0, 0⟩) 0 [7, 8] 9 0 rfl⟩

/-- C26 (MPMCQueue with `Size = 1` does not report full): on a fresh
`MPMCQueue<T, 1>`, `push(a)` returns true and stores `a`, and the `push(b)`
made next, with no pop in between, also returns true and stores `b` over the
unconsumed `a`; afterwards `enqueue_pos` is 2, `dequeue_pos` is 0 and the slot
has sequence 2. -/
theorem mpmc_size_one_overwrites (mem : Nat → Node T) (a b : T) (fuel : Nat) :
    ∃ q1 q2, MPMCQueue.push 1 (MPMCQueue.new 1 mem) a (fuel + 1) = some (true, q1) ∧
      (q1.buffer_ 0).data = a ∧ q1.enqueue_pos_ = 1 ∧ q1.dequeue_pos_ = 0 ∧
      MPMCQueue.push 1 q1 b (fuel + 1) = some (true, q2) ∧
      (q2.buffer_ 0).data = b ∧ (q2.buffer_ 0).sequence = 2 ∧
      q2.enqueue_pos_ = 2 ∧ q2.dequeue_pos_ = 0 := by
  have h1 := MPMCQueue.mpmc_one_push (MPMCQueue.invOne_new mem) a fuel
  have he1 : ((MPMCQueue.new 1 mem).enqueue_pos_ + 1) % 2 ^ 64 = 1 := by
    show (0 + 1) % 2 ^ 64 = 1
    norm_num
  have hd0 : (MPMCQueue.new 1 mem).dequeue_pos_ = 0 := rfl
  rw [he1, hd0] at h1
  have hI1 : MPMCQueue.InvOne (⟨1, 0,
      Function.update (MPMCQueue.new 1 mem).buffer_ 0 ⟨1, a⟩⟩ : MPMCQueue T) := by
    constructor
    · dsimp only
      rw [Function.update_same]
    · dsimp only
      omega
  have h2 := MPMCQueue.mpmc_one_push hI1 b fuel
  dsimp only at h2
  have he2 : (1 + 1) % 2 ^ 64 = 2 := by norm_num
  rw [he2] at h2
  refine ⟨_, _, h1, ?_, rfl, rfl, h2, ?_, ?_, rfl, rfl⟩
  · dsimp only
    rw [Function.update_same]
  · dsimp only
    rw [Function.update_same]
  · dsimp only
    rw [Function.update_same]

/-- C27 (MPMCQueue with `Size = 1` can make pop diverge): on a fresh
`MPMCQueue<T, 1>` two pushes in a row return true and leave the slot with
sequence 2 while `dequeue_pos` is 0; a pop then computes `diff = 1 > 0` in
every iteration, reloads the unchanged `dequeue_pos`, and returns for no
amount of fuel. -/
theorem mpmc_size_one_pop_diverges (mem : Nat → Node T) (a b out : T) (fuel0 : Nat) :
    ∃ q2, MPMCQueue.run 1 (fuel0 + 1) (MPMCQueue.new 1 mem) out [.push a, .push b] =
        some (q2, out, [.pushed a true, .pushed b true]) ∧
      (q2.buffer_ (q2.dequeue_pos_ % 1)).sequence = 2 ∧ q2.dequeue_pos_ = 0 ∧
      intptr_sub (q2.buffer_ (q2.dequeue_pos_ % 1)).sequence
        ((q2.dequeue_pos_ + 1) % 2 ^ 64) = 1 ∧
      (∀ fuel, MPMCQueue.pop_loop 1 q2 q2.dequeue_pos_ fuel = none) ∧
      ∀ fuel, MPMCQueue.pop 1 q2 out fuel = none := by
  obtain ⟨q1, q2, h1, _, _, _, h2, _, hseq, _, hd⟩ := mpmc_size_one_overwrites mem a b fuel0
  have hs : (q2.buffer_ (q2.dequeue_pos_ % 1)).sequence = 2 := by
    rw [Nat.mod_one]
    exact hseq
  have hdiff : intptr_sub (q2.buffer_ (q2.dequeue_pos_ % 1)).sequence
      ((q2.dequeue_pos_ + 1) % 2 ^ 64) = 1 := by
    rw [hs, hd]
    unfold intptr_sub toIntptr
    split_ifs <;> omega
  have hstuck := MPMCQueue.mpmc_pop_loop_stuck 1 q2 (by rw [hdiff]; exact Int.one_pos)
  refine ⟨q2, ?_, hs, hd, hdiff, hstuck, ?_⟩
  · have hnil : MPMCQueue.run 1 (fuel0 + 1) q2 out [] = some (q2, out, []) := rfl
    exact MPMCQueue.mpmc_run_cons (MPMCQueue.mpmc_step_push out h1)
      (MPMCQueue.mpmc_run_cons (MPMCQueue.mpmc_step_push out h2) hnil)
  · intro fuel
    simp only [MPMCQueue.pop, hstuck fuel]

/-- C22, counterexample: in the repository's own run, `messages = 10000000`
with 4 producers, each producer pushes 2500000 tokens, and producer 0 at
`count = 1000000` pushes the token producer 1 pushes at `count = 0`. -/
theorem harness_tokens_collide :
    (0 : Nat) < 4 ∧ (1 : Nat) < 4 ∧
    1000000 < per_producer 10000000 4 ∧ 0 < per_producer 10000000 4 ∧
    ((0 : Nat), (1000000 : Nat)) ≠ (1, 0) ∧
    token 0 1000000 = token 1 0 := by
  decide

/-- C22, amended: when each producer pushes at most 1000000 tokens
(`messages / producers <= 1000000`) and there are at most 2147 producers (so
that `i * 1000000` fits in `int`), every token is defined and the tokens
`i * 1000000 + count` of producers `i < producers` at counts
`count < messages / producers` are pairwise distinct. -/
theorem harness_tokens_distinct (messages producers i j c d : Nat)
    (hP : producers ≤ 2147) (hM : per_producer messages producers ≤ 1000000)
    (hi : i < producers) (hj : j < producers)
    (hc : c < per_producer messages producers) (hd : d < per_producer messages producers) :
    (token i c).isSome = true ∧ (token i c = token j d → i = j ∧ c = d) := by
  have hi1 : i * 1000000 < 2 ^ 31 := by omega
  have hj1 : j * 1000000 < 2 ^ 31 := by omega
  unfold token
  rw [if_pos hi1, if_pos hj1]
  refine ⟨rfl, ?_⟩
  intro h
  have h1 := Option.some.inj h
  rw [toInt_of_small (by omega), toInt_of_small (by omega)] at h1
  omega

/-- Witness of C22 as amended: the spec's configuration, 4 producers with
250000 tokens each; the last token of producer 0 is not the first of
producer 1. -/
theorem harness_tokens_distinct_witness :
    4 ≤ 2147 ∧ per_producer 1000000 4 ≤ 1000000 ∧ 0 < 4 ∧ 1 < 4 ∧
    249999 < per_producer 1000000 4 ∧ 0 < per_producer 1000000 4 ∧
    (token 0 249999).isSome = true ∧ token 0 249999 ≠ token 1 0 :=
  ⟨by decide, by decide, by decide, by decide, by decide, by decide,
    (harness_tokens_distinct 1000000 4 0 1 249999 0 (by decide) (by decide) (by decide)
      (by decide) (by decide) (by decide)).1,
    fun h => absurd ((harness_tokens_distinct 1000000 4 0 1 249999 0 (by decide) (by decide)
      (by decide) (by decide) (by decide) (by decide)).2 h).1 (by decide)⟩

/-- C24 (SPSC `size()` and `empty()` are exact in sequential use): for every
`Size >= 2` (a `size_t`) and every state reached from a fresh queue by calls
made one after another, `size()` is the number of successful pushes minus the
number of successful pops, `size() <= Size - 1`, and `empty()` is true iff
`size() == 0`. -/
theorem spsc_size_exact (Size : Nat) (hS : 2 ≤ Size) (hW : Size < 2 ^ 64) (mem : Nat → T)
    (item : T) (calls : List (Call T)) :
    SPSCQueue.size Size (SPSCQueue.final Size (SPSCQueue.new mem) item calls) +
        (delivered (SPSCQueue.trace Size (SPSCQueue.new mem) item calls)).length =
      (accepted (SPSCQueue.trace Size (SPSCQueue.new mem) item calls)).length ∧
    SPSCQueue.size Size (SPSCQueue.final Size (SPSCQueue.new mem) item calls) ≤ Size - 1 ∧
    ((SPSCQueue.final Size (SPSCQueue.new mem) item calls).empty = true ↔
      SPSCQueue.size Size (SPSCQueue.final Size (SPSCQueue.new mem) item calls) = 0) := by
  obtain ⟨hb, hc⟩ := SPSCQueue.run_contents hW calls (SPSCQueue.new mem) item
    (SPSCQueue.inBounds_new (by omega) mem)
  rw [SPSCQueue.contents_new, List.nil_append] at hc
  have hlen := congrArg List.length hc
  rw [List.length_append, SPSCQueue.contents_length] at hlen
  have hlt := SPSCQueue.size_lt hW hb
  have hsz := SPSCQueue.size_of_inBounds hW hb
  unfold SPSCQueue.final SPSCQueue.trace
  refine ⟨by omega, by omega, ?_⟩
  obtain ⟨hh, ht⟩ := hb
  rw [hsz]
  simp only [SPSCQueue.empty, decide_eq_true_eq]
  split_ifs <;> omega

/-- Witness of C24: four slots, three accepted pushes and one pop; `size()` is
2 and `empty()` is false. -/
theorem spsc_size_exact_witness :
    2 ≤ 4 ∧ 4 < 2 ^ 64 ∧
    SPSCQueue.size 4 (SPSCQueue.final 4 (SPSCQueue.new fun _ => 0) 0
      [.push 1, .push 2, .pop, .push 3]) = 2 ∧
    SPSCQueue.size 4 (SPSCQueue.final 4 (SPSCQueue.new fun _ => 0) 0
        [.push 1, .push 2, .pop, .push 3]) +
        (delivered (SPSCQueue.trace 4 (SPSCQueue.new fun _ => 0) 0
          [.push 1, .push 2, .pop, .push 3])).length =
      (accepted (SPSCQueue.trace 4 (SPSCQueue.new fun _ => 0) 0
        [.push 1, .push 2, .pop, .push 3])).length :=
  ⟨by decide, by norm_num, by decide,
    (spsc_size_exact 4 (by decide) (by norm_num) (fun _ => 0) 0
      [.push 1, .push 2, .pop, .push 3]).1⟩

/-- C28 (MPMC slot index across counter wraparound): the slot of the position
after `pos` is the slot after the slot of `pos` whenever `pos + 1` does not
wrap; at `pos = 2 ^ 64 - 1` it is so iff `Size` divides `2 ^ 64`; hence it is
so for every 64-bit `pos` iff `Size` divides `2 ^ 64`, that is iff `Size` is a
power of two up to `2 ^ 64`. -/
theorem mpmc_slot_wrap (Size : Nat) :
    (∀ pos, pos + 1 < 2 ^ 64 →
      MPMCQueue.slot Size (MPMCQueue.next_pos pos) = (MPMCQueue.slot Size pos + 1) % Size) ∧
    (MPMCQueue.slot Size (MPMCQueue.next_pos (2 ^ 64 - 1)) =
        (MPMCQueue.slot Size (2 ^ 64 - 1) + 1) % Size ↔ Size ∣ 2 ^ 64) ∧
    ((∀ pos, pos < 2 ^ 64 →
      MPMCQueue.slot Size (MPMCQueue.next_pos pos) = (MPMCQueue.slot Size pos + 1) % Size) ↔
      Size ∣ 2 ^ 64) ∧
    (Size ∣ 2 ^ 64 ↔ ∃ k, k ≤ 64 ∧ Size = 2 ^ k) := by
  have hlow : ∀ pos, pos + 1 < 2 ^ 64 →
      MPMCQueue.slot Size (MPMCQueue.next_pos pos) = (MPMCQueue.slot Size pos + 1) % Size := by
    intro pos hp
    unfold MPMCQueue.slot MPMCQueue.next_pos
    rw [Nat.mod_eq_of_lt hp, Nat.mod_add_mod]
  have htop : MPMCQueue.slot Size (MPMCQueue.next_pos (2 ^ 64 - 1)) =
      (MPMCQueue.slot Size (2 ^ 64 - 1) + 1) % Size ↔ Size ∣ 2 ^ 64 := by
    unfold MPMCQueue.slot MPMCQueue.next_pos
    have h0 : (2 ^ 64 - 1 + 1) % 2 ^ 64 = 0 := by norm_num
    have h1 : 2 ^ 64 - 1 + 1 = 2 ^ 64 := by norm_num
    rw [h0, Nat.mod_add_mod, h1, Nat.zero_mod, Nat.dvd_iff_mod_eq_zero]
    exact eq_comm
  refine ⟨hlow, htop, ?_, ?_⟩
  · constructor
    · intro h
      exact htop.1 (h _ (by norm_num))
    · intro hdvd pos hp
      by_cases hp1 : pos + 1 < 2 ^ 64
      · exact hlow pos hp1
      · have : pos = 2 ^ 64 - 1 := by omega
        rw [this]
        exact htop.2 hdvd
  · rw [Nat.dvd_prime_pow Nat.prime_two]

/-- Witness of C28: with `Size = 1024` the step from position 5 and the step
across the wrap both go to the next slot; with `Size = 3` the step across the
wrap goes from slot 0 to slot 0. -/
theorem mpmc_slot_wrap_witness :
    5 + 1 < 2 ^ 64 ∧
    MPMCQueue.slot 1024 (MPMCQueue.next_pos 5) = (MPMCQueue.slot 1024 5 + 1) % 1024 ∧
    1024 ∣ 2 ^ 64 ∧
    MPMCQueue.slot 1024 (MPMCQueue.next_pos (2 ^ 64 - 1)) =
      (MPMCQueue.slot 1024 (2 ^ 64 - 1) + 1) % 1024 ∧
    MPMCQueue.slot 3 (2 ^ 64 - 1) = 0 ∧ MPMCQueue.slot 3 (MPMCQueue.next_pos (2 ^ 64 - 1)) = 0 ∧
    ¬ 3 ∣ 2 ^ 64 :=
  ⟨by norm_num, (mpmc_slot_wrap 1024).1 5 (by norm_num), by decide,
    (mpmc_slot_wrap 1024).2.1.2 (by decide), by decide, by decide,
    fun h => absurd ((mpmc_slot_wrap 3).2.1.2 h) (by decide)⟩

/-- C29 (MPMC signed difference is position-independent): for 64-bit `seq` and
`pos`, `diff = (intptr_t)seq - (intptr_t)pos` is 0 iff `seq == pos` and is
negative iff `(seq - pos) mod 2 ^ 64 >= 2 ^ 63`; and `diff` is unchanged when
both counters advance by the same amount `k` with wraparound, so the ready /
full / contended classification is the same before and after the counters
wrap. The statement is for every `pos`, so it covers `pop`, which compares
with `pos + 1`. -/
theorem intptr_sub_classification (seq pos : Nat) (hs : seq < 2 ^ 64) (hp : pos < 2 ^ 64) :
    (intptr_sub seq pos = 0 ↔ seq = pos) ∧
    (intptr_sub seq pos < 0 ↔ 2 ^ 63 ≤ (seq + 2 ^ 64 - pos) % 2 ^ 64) ∧
    (0 < intptr_sub seq pos ↔
      0 < (seq + 2 ^ 64 - pos) % 2 ^ 64 ∧ (seq + 2 ^ 64 - pos) % 2 ^ 64 < 2 ^ 63) ∧
    ∀ k, intptr_sub ((seq + k) % 2 ^ 64) ((pos + k) % 2 ^ 64) = intptr_sub seq pos := by
  refine ⟨intptr_sub_eq_zero hs hp, ?_, ?_, ?_⟩
  · unfold intptr_sub toIntptr
    split_ifs <;> omega
  · unfold intptr_sub toIntptr
    split_ifs <;> omega
  · intro k
    unfold intptr_sub toIntptr
    split_ifs <;> omega

/-- Witness of C29: a full two-slot queue seen just after the counters wrap:
`seq = 2 ^ 64 - 1`, `pos = 0`, `diff = -1`, as for `seq = 5`, `pos = 6`. -/
theorem intptr_sub_classification_witness :
    2 ^ 64 - 1 < 2 ^ 64 ∧ 0 < 2 ^ 64 ∧
    intptr_sub (2 ^ 64 - 1) 0 = -1 ∧
    (intptr_sub (2 ^ 64 - 1) 0 < 0 ↔ 2 ^ 63 ≤ (2 ^ 64 - 1 + 2 ^ 64 - 0) % 2 ^ 64) ∧
    intptr_sub ((2 ^ 64 - 1 + 6) % 2 ^ 64) ((0 + 6) % 2 ^ 64) = intptr_sub (2 ^ 64 - 1) 0 :=
  ⟨by norm_num, by norm_num, by decide,
    (intptr_sub_classification (2 ^ 64 - 1) 0 (by norm_num) (by norm_num)).2.1,
    (intptr_sub_classification (2 ^ 64 - 1) 0 (by norm_num) (by norm_num)).2.2.2 6⟩

/-- C30 (SPSCQueue with `Size = 1` silently accepts nothing): an
`SPSCQueue<T, 1>` is constructed without error, and whatever calls are made on
it, every push returns false, every pop returns false, and the queue stays as
constructed, `head` and `tail` 0; so in every reachable state `push` and `pop`
return false. -/
theorem spsc_size_one_accepts_nothing (mem : Nat → T) (item : T) (calls : List (Call T))
    (x out : T) :
    SPSCQueue.construct 1 mem = some (SPSCQueue.new mem) ∧
    SPSCQueue.trace 1 (SPSCQueue.new mem) item calls =
      (calls.map fun c =>
        match c with
        | .push y => Event.pushed y false
        | .pop => Event.popped false item) ∧
    SPSCQueue.final 1 (SPSCQueue.new mem) item calls = SPSCQueue.new mem ∧
    (SPSCQueue.final 1 (SPSCQueue.new mem) item calls).head_ = 0 ∧
    (SPSCQueue.final 1 (SPSCQueue.new mem) item calls).tail_ = 0 ∧
    SPSCQueue.push 1 (SPSCQueue.final 1 (SPSCQueue.new mem) item calls) x =
      (false, SPSCQueue.final 1 (SPSCQueue.new mem) item calls) ∧
    SPSCQueue.pop 1 (SPSCQueue.final 1 (SPSCQueue.new mem) item calls) out =
      (false, out, SPSCQueue.final 1 (SPSCQueue.new mem) item calls) := by
  have hrun := SPSCQueue.run_size_one calls (SPSCQueue.new mem) item rfl rfl
  have hf : SPSCQueue.final 1 (SPSCQueue.new mem) item calls = SPSCQueue.new mem := by
    unfold SPSCQueue.final
    rw [hrun]
  refine ⟨rfl, ?_, hf, ?_, ?_, ?_, ?_⟩
  · unfold SPSCQueue.trace
    rw [hrun]
  · rw [hf]
    rfl
  · rw [hf]
    rfl
  · rw [hf]
    exact SPSCQueue.push_full x (by
      show (0 + 1) % 2 ^ 64 % 1 = 0
      rw [Nat.mod_one])
  · rw [hf]
    exact SPSCQueue.pop_empty 1 out rfl

/-- C25 (SPSCQueue refines the mutex-based reference queue): for every
`Size >= 1` (a `size_t`) and every sequence of calls made one after another,
`SPSCQueue<T, Size>` and `MutexQueue<T, Size>` started from their initial
states, whatever their arrays hold at first, give the same events (the same
boolean for every call and the same value for every pop), leave the same value
in the caller's variable, and end with equal `head` and `tail`; every slot
holds the same value in both, unless it was never written and still holds
what each array started with. -/
theorem spsc_refines_mutex (Size : Nat) (hS : 1 ≤ Size) (hW : Size < 2 ^ 64)
    (mem1 mem2 : Nat → T) (item : T) (calls : List (Call T)) :
    (SPSCQueue.run Size (SPSCQueue.new mem1) item calls).2.2 =
      (MutexQueue.run Size (MutexQueue.new mem2) item calls).2.2 ∧
    (SPSCQueue.run Size (SPSCQueue.new mem1) item calls).2.1 =
      (MutexQueue.run Size (MutexQueue.new mem2) item calls).2.1 ∧
    (SPSCQueue.run Size (SPSCQueue.new mem1) item calls).1.head_ =
      (MutexQueue.run Size (MutexQueue.new mem2) item calls).1.head_ ∧
    (SPSCQueue.run Size (SPSCQueue.new mem1) item calls).1.tail_ =
      (MutexQueue.run Size (MutexQueue.new mem2) item calls).1.tail_ ∧
    ∀ i, (SPSCQueue.run Size (SPSCQueue.new mem1) item calls).1.buffer_ i =
        (MutexQueue.run Size (MutexQueue.new mem2) item calls).1.buffer_ i ∨
      ((SPSCQueue.run Size (SPSCQueue.new mem1) item calls).1.buffer_ i = mem1 i ∧
        (MutexQueue.run Size (MutexQueue.new mem2) item calls).1.buffer_ i = mem2 i) := by
  obtain ⟨h1, h2, h3⟩ := MutexQueue.mutex_run_toSPSC Size calls (MutexQueue.new mem2) item
  have hnew : (MutexQueue.new mem2).toSPSC = SPSCQueue.new mem2 := rfl
  rw [hnew] at h1 h2 h3
  obtain ⟨a1, a2, a3, a4, a5⟩ := SPSCQueue.run_agree hW mem1 mem2 calls (SPSCQueue.new mem1)
    (SPSCQueue.new mem2) item (SPSCQueue.inBounds_new hS mem1) rfl rfl
    (by rw [SPSCQueue.contents_new, SPSCQueue.contents_new]) (fun i => Or.inr ⟨rfl, rfl⟩)
  have hhead := congrArg SPSCQueue.head_ h1
  have htail := congrArg SPSCQueue.tail_ h1
  have hbuf := congrArg SPSCQueue.buffer_ h1
  refine ⟨a1.trans h3.symm, a2.trans h2.symm, a3.trans hhead.symm, a4.trans htail.symm, ?_⟩
  intro i
  have hi : (MutexQueue.run Size (MutexQueue.new mem2) item calls).1.buffer_ i =
      (SPSCQueue.run Size (SPSCQueue.new mem2) item calls).1.buffer_ i := congrFun hbuf i
  rw [hi]
  exact a5 i

/-- Witness of C25: three slots, the arrays starting with different contents;
one push is refused and one pop finds the queue empty in both. -/
theorem spsc_refines_mutex_witness :
    1 ≤ 3 ∧ 3 < 2 ^ 64 ∧
    (SPSCQueue.run 3 (SPSCQueue.new fun _ => 0) 0
        [.push 1, .push 2, .push 3, .pop, .pop, .pop]).2.2 =
      [.pushed 1 true, .pushed 2 true, .pushed 3 false,
        .popped true 1, .popped true 2, .popped false 2] ∧
    (SPSCQueue.run 3 (SPSCQueue.new fun _ => 0) 0
        [.push 1, .push 2, .push 3, .pop, .pop, .pop]).2.2 =
      (MutexQueue.run 3 (MutexQueue.new fun _ => 9) 0
        [.push 1, .push 2, .push 3, .pop, .pop, .pop]).2.2 ∧
    (SPSCQueue.run 3 (SPSCQueue.new fun _ => 0) 0
        [.push 1, .push 2, .push 3, .pop, .pop, .pop]).1.head_ =
      (MutexQueue.run 3 (MutexQueue.new fun _ => 9) 0
        [.push 1, .push 2, .push 3, .pop, .pop, .pop]).1.head_ :=
  ⟨by decide, by norm_num, by decide,
    (spsc_refines_mutex 3 (by decide) (by norm_num) (fun _ => 0) (fun _ => 9) 0
      [.push 1, .push 2, .push 3, .pop, .pop, .pop]).1,
    (spsc_refines_mutex 3 (by decide) (by norm_num) (fun _ => 0) (fun _ => 9) 0
      [.push 1, .push 2, .push 3, .pop, .pop, .pop]).2.2.1⟩

end Claims

end LockFree
